import Mathlib

/-!
Verification of the schema-projection engine of `useCrudSchemas.ts` and the
string/array utilities of `utils/index.ts`.

Schema nodes, view-annotation blocks and option records are dynamic
JavaScript objects, so the embedding works over a JS-like value type `JVal`.
Stateful code (the deferred api-enrichment tasks that patch the returned
search-schema list) is modelled by explicit state passing; fallible code
(property access / `Array.prototype.map` on `undefined`, strict-mode
property assignment on primitives) returns `Except Unit`.
-/

/-- JS runtime values as the engine manipulates them.  `jobj` is a
constructed object: a list of key/value bindings, at most one binding per
key (JS objects collapse duplicate literal keys).  `jfunRej` / `jfunRes`
model the zero-argument `api` data-fetch function by its eventual outcome:
rejection, or resolution with the given value (`AxiosPromise` result).
Numbers are `Int` (the code only manipulates small integers; no NaN
arises in the modelled paths). -/
inductive JVal where
  | jundefined
  | jnull
  | jbool (b : Bool)
  | jnum (n : Int)
  | jstr (s : String)
  | jarr (xs : List JVal)
  | jobj (kvs : List (String × JVal))
  | jfunRej
  | jfunRes (res : JVal)

mutual
def jeq : JVal → JVal → Bool
  | .jundefined, .jundefined => true
  | .jnull, .jnull => true
  | .jbool a, .jbool b => a == b
  | .jnum a, .jnum b => a == b
  | .jstr a, .jstr b => a == b
  | .jarr xs, .jarr ys => jeqList xs ys
  | .jobj a, .jobj b => jeqKVs a b
  | .jfunRej, .jfunRej => true
  | .jfunRes a, .jfunRes b => jeq a b
  | _, _ => false

def jeqList : List JVal → List JVal → Bool
  | [], [] => true
  | x :: xs, y :: ys => jeq x y && jeqList xs ys
  | _, _ => false

def jeqKVs : List (String × JVal) → List (String × JVal) → Bool
  | [], [] => true
  | (k, v) :: xs, (l, w) :: ys => k == l && jeq v w && jeqKVs xs ys
  | _, _ => false
end

mutual
def jeq_iff : ∀ (a b : JVal), (jeq a b = true) ↔ a = b
  | .jundefined, b => by cases b <;> simp [jeq]
  | .jnull, b => by cases b <;> simp [jeq]
  | .jbool x, b => by cases b <;> simp [jeq]
  | .jnum x, b => by cases b <;> simp [jeq]
  | .jstr x, b => by cases b <;> simp [jeq]
  | .jarr xs, b => by
      cases b <;> simp [jeq]
      exact jeqList_iff xs _
  | .jobj a, b => by
      cases b <;> simp [jeq]
      exact jeqKVs_iff a _
  | .jfunRej, b => by cases b <;> simp [jeq]
  | .jfunRes x, b => by
      cases b <;> simp [jeq]
      exact jeq_iff x _

def jeqList_iff : ∀ (a b : List JVal), (jeqList a b = true) ↔ a = b
  | [], b => by cases b <;> simp [jeqList]
  | x :: xs, b => by
      cases b with
      | nil => simp [jeqList]
      | cons y ys => simp [jeqList, jeq_iff x y, jeqList_iff xs ys]

def jeqKVs_iff : ∀ (a b : List (String × JVal)), (jeqKVs a b = true) ↔ a = b
  | [], b => by cases b <;> simp [jeqKVs]
  | (k, v) :: xs, b => by
      cases b with
      | nil => simp [jeqKVs]
      | cons p ys =>
          obtain ⟨l, w⟩ := p
          simp [jeqKVs, jeq_iff v w, jeqKVs_iff xs ys, and_assoc]
end

instance : DecidableEq JVal := fun a b => decidable_of_iff _ (jeq_iff a b)

instance {e a : Type} [DecidableEq e] [DecidableEq a] : DecidableEq (Except e a) :=
  fun x y =>
    match x, y with
    | .ok v, .ok w =>
        if h : v = w then isTrue (by rw [h]) else isFalse (by simp [h])
    | .error u, .error t =>
        if h : u = t then isTrue (by rw [h]) else isFalse (by simp [h])
    | .ok _, .error _ => isFalse (by simp)
    | .error _, .ok _ => isFalse (by simp)

/-- JS truthiness: `undefined`, `null`, `false`, `0`, `""` are falsy,
everything else (objects, arrays, functions, nonzero numbers, nonempty
strings) is truthy. -/
def truthy : JVal → Bool
  | .jundefined => false
  | .jnull => false
  | .jbool b => b
  | .jnum n => n != 0
  | .jstr s => s != ""
  | _ => true

/-- Property read on an object's binding list: value of the binding for
`k`, `undefined` when absent. -/
def objGet : List (String × JVal) → String → JVal
  | [], _ => .jundefined
  | (k', v) :: rest, k => if k' = k then v else objGet rest k

/-- Property write: replaces the existing binding for `k` in place (JS
objects keep the first-insertion position of a key), otherwise appends. -/
def objSet : List (String × JVal) → String → JVal → List (String × JVal)
  | [], k, v => [(k, v)]
  | (k', v') :: rest, k, v =>
      if k' = k then (k, v) :: rest else (k', v') :: objSet rest k v

/-- The `delete` operator: removes the binding for `k`. -/
def objDelete (kvs : List (String × JVal)) (k : String) : List (String × JVal) :=
  kvs.filter (fun p => !(p.1 == k))

/-- Whether the object has an own binding for `k` (`k in o`). -/
def objHas (kvs : List (String × JVal)) (k : String) : Bool :=
  kvs.any (fun p => p.1 == k)

/-- Object spread `{...acc, ...v}`: an object's bindings override `acc`'s
left to right; spreading `undefined`, `null` or another primitive
contributes no keys.  (Index-spreading of strings/arrays is not modelled;
schema view blocks are plain objects.) -/
def spreadInto (acc : List (String × JVal)) (v : JVal) : List (String × JVal) :=
  match v with
  | .jobj kvs => kvs.foldl (fun a p => objSet a p.1 p.2) acc
  | _ => acc

/-- Property read through a value: non-objects have no own properties in
the modelled paths (primitives yield `undefined`; the engine only ever
dereferences `null`/`undefined` behind optional chaining or in places
modelled as errors). -/
def jGet (v : JVal) (k : String) : JVal :=
  match v with
  | .jobj kvs => objGet kvs k
  | _ => .jundefined

def jSet (v : JVal) (k : String) (w : JVal) : JVal :=
  match v with
  | .jobj kvs => .jobj (objSet kvs k w)
  | _ => v

def jDelete (v : JVal) (k : String) : JVal :=
  match v with
  | .jobj kvs => .jobj (objDelete kvs k)
  | _ => v

/-- Whether `v` is an object carrying an own binding for `k`. -/
def jHas (v : JVal) (k : String) : Bool :=
  match v with
  | .jobj kvs => objHas kvs k
  | _ => false

/-- ToPropertyKey coercion used by `getDictObj[dictName]`; the schemas use
string dictionary names utilised by the claims, the other primitive cases
follow JS ToString. -/
def jPropKey : JVal → String
  | .jstr s => s
  | .jnum n => toString n
  | .jbool b => toString b
  | .jnull => "null"
  | .jundefined => "undefined"
  | _ => ""

/-- Keys of the binding list are pairwise distinct (the invariant of
constructed JS objects). -/
def keysNoDup : List (String × JVal) → Bool
  | [] => true
  | (k, _) :: rest => !(objHas rest k) && keysNoDup rest

mutual
/-- Modelled from the spec: `eachTree` from `@/utils/tree` (its source file is
not in the repository snapshot).  Spec §4.1 Visit: depth-first pre-order
traversal invoking the visitor on every node, recursing into `children`,
never skipping a node.  We expose the traversal as the pre-order node list;
the projectors fold their visitor over it. -/
def preorder : List JVal → List JVal
  | [] => []
  | n :: rest => n :: (preorderNode n ++ preorder rest)

def preorderNode : JVal → List JVal
  | .jobj kvs => preorderKVs kvs
  | _ => []

def preorderKVs : List (String × JVal) → List JVal
  | [] => []
  | (k, v) :: rest =>
      if k = "children" then preorderChild v else preorderKVs rest

def preorderChild : JVal → List JVal
  | .jarr xs => preorder xs
  | _ => []
end

/-- Child node list of a schema node: the value of its `children` key when
that is an array, otherwise nothing to traverse. -/
def childrenOf (n : JVal) : List JVal :=
  match jGet n "children" with
  | .jarr xs => xs
  | _ => []

mutual
/-- Modelled from the spec: `treeMap` from `@/utils/tree` (not in the
repository snapshot).  Spec §4.1 Map: produces a new tree of the same shape
where the transform replaces each node; an absent transform result still
gets the (transformed) children list reattached — reattaching requires a
carrier, so an absent result is carried as a fresh empty record, which the
later filtering pass prunes while still discovering its descendants. -/
def treeMapList (conv : JVal → Option JVal) : List JVal → List JVal
  | [] => []
  | n :: rest => treeMapNode conv n :: treeMapList conv rest

def treeMapNode (conv : JVal → Option JVal) (n : JVal) : JVal :=
  let base := (conv n).getD (.jobj [])
  match n with
  | .jobj kvs =>
      (match treeMapMapped conv kvs with
       | some ms => jSet base "children" (.jarr ms)
       | none => base)
  | _ => base

def treeMapMapped (conv : JVal → Option JVal) : List (String × JVal) → Option (List JVal)
  | [] => none
  | (k, v) :: rest =>
      if k = "children" then treeMapChild conv v else treeMapMapped conv rest

def treeMapChild (conv : JVal → Option JVal) : JVal → Option (List JVal)
  | .jarr xs => some (treeMapList conv xs)
  | _ => none
end

mutual
/-- Modelled from the spec: `filter` from `@/utils/tree` (not in the
repository snapshot).  Spec §4.1 Filter: post-order structural filter —
children are filtered first, a child is kept only if the predicate holds of
it, then the current node is evaluated; a node whose resulting children
list is empty has its `children` key removed entirely (key absence, not an
empty list). -/
def treeFilterList (p : JVal → Bool) : List JVal → List JVal
  | [] => []
  | n :: rest =>
      (let kids := treeFilterKids p n
       let n' := if kids.isEmpty then jDelete n "children" else jSet n "children" (.jarr kids)
       if p n' then [n'] else []) ++ treeFilterList p rest

def treeFilterKids (p : JVal → Bool) : JVal → List JVal
  | .jobj kvs => treeFilterKVs p kvs
  | _ => []

def treeFilterKVs (p : JVal → Bool) : List (String × JVal) → List JVal
  | [] => []
  | (k, v) :: rest =>
      if k = "children" then treeFilterChild p v else treeFilterKVs p rest

def treeFilterChild (p : JVal → Bool) : JVal → List JVal
  | .jarr xs => treeFilterList p xs
  | _ => []
end

/-- src/utils/index.ts `findIndex`: the environment's arrays have a native
`Array.prototype.findIndex`, so the first branch runs and returns the index
of the first element satisfying `fn`, else `-1`; the `ary.some` fallback
computes the same first-match index. -/
def findIndex (ary : List JVal) (fn : JVal → Bool) : Int :=
  match ary.findIdx? fn with
  | some i => (i : Int)
  | none => -1

/-- src/utils/index.ts `toAnyString` helper: walks the template characters;
each `x`/`y` consumes one pseudo-random draw `r = Math.random()*16|0`
(an integer in `[0,16)`, supplied here as `draws i % 16`) and is replaced
by `v.toString()` — note: DECIMAL rendering, the source passes no radix —
where `v = r` for `x` and `v = (r & 0x3) | 0x8` for `y`. -/
def toAnyStringAux (draws : Nat → Nat) : List Char → Nat → String
  | [], _ => ""
  | c :: cs, i =>
      if c = 'x' then
        toString (draws i % 16) ++ toAnyStringAux draws cs (i + 1)
      else if c = 'y' then
        toString (((draws i % 16) &&& 3) ||| 8) ++ toAnyStringAux draws cs (i + 1)
      else
        String.singleton c ++ toAnyStringAux draws cs i

/-- src/utils/index.ts `toAnyString`: replaces every `x`/`y` of the fixed
template using the pseudo-random draw sequence. -/
def toAnyString (draws : Nat → Nat) : String :=
  toAnyStringAux draws "xxxxx-xxxxx-4xxxx-yxxxx-xxxxx".toList 0

/-- src/hooks/web/useCrudSchemas.ts `filterOptions`, per option record: with
a truthy `labelField` argument the source writes `v['labelField'] =
t(v.labelField)` — it reads from and writes to the key literally named
`labelField`, not the key the argument names; otherwise `v['label'] =
t(v.label)`.  A non-object record cannot take the strict-mode property
assignment, so the call throws. -/
def translateOptRecord (t : JVal → JVal) (labelField : JVal) (v : JVal) : Except Unit JVal :=
  match v with
  | .jobj kvs =>
      if truthy labelField then
        .ok (.jobj (objSet kvs "labelField" (t (objGet kvs "labelField"))))
      else
        .ok (.jobj (objSet kvs "label" (t (objGet kvs "label"))))
  | _ => .error ()

/-- src/hooks/web/useCrudSchemas.ts `filterOptions`: `options.map(...)` over
the record translator; calling `.map` on a non-array (in particular on the
`undefined` produced by a missing dictionary entry) throws a TypeError,
modelled as `Except.error`. -/
def filterOptionsE (t : JVal → JVal) (options : JVal) (labelField : JVal) : Except Unit JVal :=
  match options with
  | .jarr xs => do
      let ys ← xs.mapM (translateOptRecord t labelField)
      .ok (.jarr ys)
  | _ => .error ()

/-- External collaborators of the search projector: the i18n translation
function `t` (applied to whatever value the record's label key holds) and
the dictionary store lookup `getDictObj[name]` (`none` = entry absent). -/
structure SearchEnv where
  t : JVal → JVal
  dict : String → Option JVal

/-- Value of `dictStore.getDictObj[dictName]`: the stored list, or
`undefined` when the name is absent from the global dictionary map. -/
def dictLookup (env : SearchEnv) (dn : JVal) : JVal :=
  match env.dict (jPropKey dn) with
  | some v => v
  | none => .jundefined

/-- Deferred api-enrichment task (the closure pushed onto
`searchRequestTask`): `fld` is the captured `searchSchemaItem.field`, `cp`
the captured record's `componentProps` value (read at run time for the
`optionsAlias?.labelField` argument; later patches only ever touch
`options`, so the snapshot is faithful), `out` the api function's outcome —
`none` when the promise rejects (or the truthy `api` value is not callable,
which throws inside the detached task), `some res` when it resolves. -/
structure TaskDesc where
  fld : JVal
  cp : JVal
  out : Option JVal
deriving DecidableEq

/-- Visibility in the search view: `if (schemaItem?.search?.show)` —
truthiness, only a truthy `show` includes the node. -/
def visibleSearch (n : JVal) : Bool :=
  truthy (jGet (jGet n "search") "show")

/-- The object literal built for a visible search node:
`{component: search.component || 'input', componentProps: {}, ...search,
field: node.field, label: node.label}` — the spread overrides the defaults,
the trailing literal keys override the spread. -/
def searchItem0 (n : JVal) : List (String × JVal) :=
  let sb := jGet n "search"
  let c0 := jGet sb "component"
  let comp := if truthy c0 then c0 else .jstr "input"
  objSet (objSet (spreadInto [("component", comp), ("componentProps", .jobj [])] sb)
      "field" (jGet n "field")) "label" (jGet n "label")

/-- Per-node body of `filterSearchSchema` for a visible node: the dictName
branch synchronously translates the dictionary list (note: `filterOptions`
is called with ONE argument there, so no labelField override) and assigns
it into `componentProps.options` before the record is appended; the api
branch pushes a deferred task; both delete `show` and `dictName` before the
push.  Errors (TypeError from `.map` on a missing dictionary entry, or the
assignment through a non-object `componentProps!`) propagate synchronously. -/
def buildSearchE (env : SearchEnv) (n : JVal) : Except Unit (JVal × Option TaskDesc) :=
  let it := searchItem0 n
  let dn := objGet it "dictName"
  if truthy dn then
    match filterOptionsE env.t (dictLookup env dn) .jundefined with
    | .error e => .error e
    | .ok opts =>
        match objGet it "componentProps" with
        | .jobj cp =>
            .ok (.jobj (objDelete (objDelete
                  (objSet it "componentProps" (.jobj (objSet cp "options" opts)))
                  "show") "dictName"), none)
        | _ => .error ()
  else if truthy (objGet it "api") then
    .ok (.jobj (objDelete (objDelete it "show") "dictName"),
         some { fld := objGet it "field", cp := objGet it "componentProps",
                out := match objGet it "api" with
                       | .jfunRes v => some v
                       | _ => none })
  else
    .ok (.jobj (objDelete (objDelete it "show") "dictName"), none)

/-- One visitor step of `filterSearchSchema`: append the built record (and
its deferred task, if any) when the node is visible. -/
def searchStep (env : SearchEnv) (acc : List JVal × List TaskDesc) (n : JVal) :
    Except Unit (List JVal × List TaskDesc) :=
  if visibleSearch n then do
    let rt ← buildSearchE env n
    Except.ok (acc.1 ++ [rt.1], acc.2 ++ rt.2.toList)
  else Except.ok acc

/-- src/hooks/web/useCrudSchemas.ts `filterSearchSchema`, synchronous phase:
visits the tree pre-order, assembling the flat `searchSchema` list and the
queue of deferred api tasks.  The `for` loop then starts each task, but
every task suspends at its `await` before touching state, so the assembled
list is returned unpatched and the tasks run against it later. -/
def filterSearchSchemaE (env : SearchEnv) (l : List JVal) :
    Except Unit (List JVal × List TaskDesc) :=
  (preorder l).foldlM (searchStep env) ([], [])

/-- The `searchSchemaItem.componentProps.optionsAlias?.labelField` read in
the task body (optional chaining only after `optionsAlias`). -/
def lfOf (cpv : JVal) : JVal :=
  let oa := jGet cpv "optionsAlias"
  if oa = .jundefined ∨ oa = .jnull then .jundefined else jGet oa "labelField"

/-- The patch a resolved task applies to the located record, or `none` when
the task dies instead: reading `.optionsAlias` off an undefined/null
`componentProps` throws, `filterOptions` on a non-array `res.data` throws,
and the strict-mode assignment through a non-object `componentProps` of the
located record throws — an exception inside the detached async task never
reaches the caller, it just means no write happens. -/
def patchRecord (env : SearchEnv) (res : JVal) (td : TaskDesc) (r : JVal) : Option JVal :=
  if td.cp = .jundefined ∨ td.cp = .jnull then none
  else
    match filterOptionsE env.t (jGet res "data") (lfOf td.cp) with
    | .error _ => none
    | .ok opts =>
        match jGet r "componentProps" with
        | .jobj cp2 => some (jSet r "componentProps" (.jobj (objSet cp2 "options" opts)))
        | _ => none

/-- Resolution of one deferred task against the (already returned) search
schema list: a rejected promise or a falsy resolution leaves the state
untouched; otherwise the record is located by `findIndex` on `field` and,
when found, its `componentProps.options` is overwritten with the translated
`res.data`. -/
def applyTask (env : SearchEnv) (st : List JVal) (td : TaskDesc) : List JVal :=
  match td.out with
  | none => st
  | some res =>
    if truthy res then
      let idx := findIndex st (fun v => jGet v "field" == td.fld)
      if idx = -1 then st
      else
        match st[idx.toNat]? with
        | none => st
        | some r =>
            match patchRecord env res td r with
            | none => st
            | some r2 => st.set idx.toNat r2
    else st

/-- Resolution of all scheduled tasks (the spec guarantees no ordering
across tasks; this folds them in queue order, each task touching only the
record it locates). -/
def runTasks (env : SearchEnv) (st : List JVal) (tds : List TaskDesc) : List JVal :=
  tds.foldl (applyTask env) st

/-- Visibility in the table view: `schema?.table?.show !== false` — only an
explicit `false` hides (strict inequality). -/
def visibleTable (n : JVal) : Bool :=
  !(jGet (jGet n "table") "show" == JVal.jbool false)

/-- The merged table record `{...schema.table, ...schema}`: the whole node
is spread LAST, so keys present on the node override same-named keys of the
table block (the asymmetric merge order of the table projector). -/
def mergeTable (n : JVal) : JVal :=
  .jobj (spreadInto (spreadInto [] (jGet n "table")) n)

/-- The `conversion` callback passed to `treeMap` by `filterTableSchema`:
an absent result for hidden nodes, the merged record otherwise. -/
def tableConv (n : JVal) : Option JVal :=
  if visibleTable n then some (mergeTable n) else none

/-- The predicate passed to `filter` by `filterTableSchema`: keep a node
only if its (merged) `field` is truthy.  Its `delete data.children` for an
undefined-valued `children` cannot fire here: the modelled `filter` has
already removed an empty children list's key or replaced it by a nonempty
array, so the guard `data.children === void 0` is never met on a node the
predicate is evaluated on. -/
def tablePred (data : JVal) : Bool :=
  truthy (jGet data "field")

/-- src/hooks/web/useCrudSchemas.ts `filterTableSchema`: map the tree with
the merging conversion, then filter out the nodes left without a truthy
`field` (the "second pass" of the source comment). -/
def filterTableSchema (l : List JVal) : List JVal :=
  treeFilterList tablePred (treeMapList tableConv l)

/-- Visibility in the form view: `schemaItem?.form?.show !== false`. -/
def visibleForm (n : JVal) : Bool :=
  !(jGet (jGet n "form") "show" == JVal.jbool false)

/-- The record built for a visible form node: `{component:
(form && form.component) || 'Input', ...form, field, label}` minus `show`. -/
def buildForm (n : JVal) : JVal :=
  let fb := jGet n "form"
  let cAnd := if truthy fb then jGet fb "component" else fb
  let comp := if truthy cAnd then cAnd else .jstr "Input"
  .jobj (objDelete
    (objSet (objSet (spreadInto [("component", comp)] fb) "field" (jGet n "field"))
      "label" (jGet n "label")) "show")

/-- src/hooks/web/useCrudSchemas.ts `filterFormSchema`: pre-order visit,
appending the built record of every visible node to a flat list. -/
def filterFormSchema (l : List JVal) : List JVal :=
  (preorder l).foldl (fun acc n => if visibleForm n then acc ++ [buildForm n] else acc) []

/-- Visibility in the detail view: `schemaItem?.detail?.show !== false`. -/
def visibleDetail (n : JVal) : Bool :=
  !(jGet (jGet n "detail") "show" == JVal.jbool false)

/-- The record built for a visible detail node: `{...detail, field, label}`
minus `show` — pure passthrough, no component/dict/api handling. -/
def buildDetail (n : JVal) : JVal :=
  .jobj (objDelete
    (objSet (objSet (spreadInto [] (jGet n "detail")) "field" (jGet n "field"))
      "label" (jGet n "label")) "show")

/-- src/hooks/web/useCrudSchemas.ts `filterDescriptionsSchema`: pre-order
visit, appending the built record of every visible node to a flat list. -/
def filterDescriptionsSchema (l : List JVal) : List JVal :=
  (preorder l).foldl (fun acc n => if visibleDetail n then acc ++ [buildDetail n] else acc) []

/-- Process-scope output aggregate of one engine call. -/
structure AllSchemas where
  searchSchema : List JVal
  tableColumns : List JVal
  formSchema : List JVal
  detailSchema : List JVal

/-- src/hooks/web/useCrudSchemas.ts `useCrudSchemas`: computes the four
projections synchronously (an exception from the search projector aborts
the whole call) and hands back the deferred tasks that will later patch
`searchSchema` in place. -/
def useCrudSchemas (env : SearchEnv) (l : List JVal) :
    Except Unit (AllSchemas × List TaskDesc) := do
  let st ← filterSearchSchemaE env l
  Except.ok ({ searchSchema := st.1, tableColumns := filterTableSchema l,
               formSchema := filterFormSchema l, detailSchema := filterDescriptionsSchema l },
             st.2)

/-- Modelled from the spec: §3's data-model constraints on a view
annotation block (the global TS types `TableColumn`/`FormSchema` are not in
the repository snapshot): a block is absent or a plain object with
key-unique bindings, its `show` is absent or boolean (`show?: boolean` in
the src type aliases), and it carries no `children` key — `children` lives
on the node itself. -/
def blockOk (v : JVal) : Bool :=
  match v with
  | .jundefined => true
  | .jobj kvs =>
      keysNoDup kvs && !(objHas kvs "children") &&
      (match objGet kvs "show" with
       | .jundefined => true
       | .jbool _ => true
       | _ => false)
  | _ => false

mutual
/-- Modelled from the spec: §3's data model of a `SchemaNode` — a plain
object with key-unique bindings, well-formed view blocks, and `children`
absent or an array of well-formed nodes. -/
def wfNode : JVal → Bool
  | .jobj kvs =>
      keysNoDup kvs &&
      blockOk (objGet kvs "search") && blockOk (objGet kvs "table") &&
      blockOk (objGet kvs "form") && blockOk (objGet kvs "detail") &&
      wfChildren kvs
  | _ => false

def wfList : List JVal → Bool
  | [] => true
  | n :: rest => wfNode n && wfList rest

def wfChildren : List (String × JVal) → Bool
  | [] => true
  | (k, v) :: rest =>
      if k = "children" then wfChildVal v else wfChildren rest

def wfChildVal : JVal → Bool
  | .jarr xs => wfList xs
  | .jundefined => true
  | _ => false
end

/-- Relation between a visited node and the record the search projector
appends for it. -/
def searchRel (env : SearchEnv) (n r : JVal) : Prop :=
  ∃ topt, buildSearchE env n = Except.ok (r, topt)

mutual
/-- Structural size measure used for induction over schema trees. -/
def jsize : JVal → Nat
  | .jarr xs => 1 + jsizeList xs
  | .jobj kvs => 1 + jsizeKVs kvs
  | .jfunRes r => 1 + jsize r
  | _ => 1

def jsizeList : List JVal → Nat
  | [] => 0
  | x :: xs => 1 + jsize x + jsizeList xs

def jsizeKVs : List (String × JVal) → Nat
  | [] => 0
  | (_, v) :: rest => 1 + jsize v + jsizeKVs rest
end

/-- The record the table pipeline produces for a kept node: the merged
record with its `children` key replaced by the (recursively filtered)
mapped children, or removed when none survive. -/
def tblShaped (n : JVal) : JVal :=
  let kids := filterTableSchema (childrenOf n)
  if kids.isEmpty then jDelete (mergeTable n) "children"
  else jSet (mergeTable n) "children" (.jarr kids)

/-- A record appears somewhere in the table projection of `l` exactly when
it is the shaped merge of a node reachable through a chain of ancestors
that are all visible (`table.show` not explicitly `false`) and carry a
truthy merged `field`. -/
inductive AppearsTable : List JVal → JVal → Prop where
  | here {l : List JVal} {n : JVal} : n ∈ l → visibleTable n = true →
      truthy (jGet (mergeTable n) "field") = true → AppearsTable l (tblShaped n)
  | under {l : List JVal} {n m : JVal} : n ∈ l → visibleTable n = true →
      truthy (jGet (mergeTable n) "field") = true → AppearsTable (childrenOf n) m →
      AppearsTable l m

/-- Uppercasing translator used as the concrete `Translate` collaborator
(`s.toUpperCase()`; implemented character-wise so that concrete instances
evaluate inside the kernel). -/
def jUpper : JVal → JVal
  | .jstr s => .jstr (String.mk (s.data.map Char.toUpper))
  | w => w

/-- Collaborators with an identity translator and an empty dictionary map. -/
def envNone : SearchEnv := { t := fun v => v, dict := fun _ => none }

/-- Collaborators with the uppercasing translator and one dictionary entry
`d` holding a single option record. -/
def envUp : SearchEnv :=
  { t := jUpper,
    dict := fun s =>
      if s = "d" then some (.jarr [.jobj [("label", .jstr "x"), ("labelField", .jstr "y")]])
      else none }

def nodeShowT : JVal :=
  .jobj [("field", .jstr "a"), ("label", .jstr "A"), ("search", .jobj [("show", .jbool true)])]

def nodeShowF : JVal :=
  .jobj [("field", .jstr "b"), ("label", .jstr "B"), ("search", .jobj [("show", .jbool false)])]

def nodePlain : JVal := .jobj [("field", .jstr "c"), ("label", .jstr "C")]

def treeW1 : List JVal := [nodeShowT, nodeShowF, nodePlain]

def childA : JVal := .jobj [("field", .jstr "a"), ("label", .jstr "A")]

/-- A hidden parent (`table.show: false`) with a visible, fielded child. -/
def treeC2 : List JVal :=
  [.jobj [("field", .jstr "p"), ("label", .jstr "P"),
          ("table", .jobj [("show", .jbool false)]),
          ("children", .jarr [childA])]]

def nodeDictMissing : JVal :=
  .jobj [("field", .jstr "f"), ("label", .jstr "F"),
         ("search", .jobj [("show", .jbool true), ("dictName", .jstr "missing")])]

def nodeDictAlias : JVal :=
  .jobj [("field", .jstr "f"), ("label", .jstr "F"),
         ("search", .jobj [("show", .jbool true), ("dictName", .jstr "d"),
           ("componentProps", .jobj [("optionsAlias", .jobj [("labelField", .jstr "alt")])])])]

/-- A node without its own `field`, but with a stray `field` inside its
table block. -/
def nodeSneak : JVal := .jobj [("label", .jstr "L"), ("table", .jobj [("field", .jstr "sneak")])]

def recP : JVal := .jobj [("field", .jstr "q"), ("componentProps", .jobj [])]

def recQ : JVal := .jobj [("field", .jstr "a"), ("componentProps", .jobj [("x", .jnum 1)])]

/-- A two-record search schema state for exercising the deferred patch. -/
def stW : List JVal := [recP, recQ]

/-- A task whose api rejected. -/
def tdRej : TaskDesc := { fld := .jstr "a", cp := .jobj [], out := none }

/-- A task whose api resolved with a falsy result. -/
def tdEmpty : TaskDesc := { fld := .jstr "a", cp := .jobj [], out := some .jundefined }

/-- A task whose api resolved with one data record. -/
def tdRes : TaskDesc :=
  { fld := .jstr "a", cp := .jobj [],
    out := some (.jobj [("data", .jarr [.jobj [("value", .jnum 1), ("label", .jstr "opt")]])]) }

/-- The draw sequence in which every `Math.random()*16|0` yields 15. -/
def draws15 : Nat → Nat := fun _ => 15

/-- The record the engine builds for `nodeShowT`. -/
def recW1 : JVal :=
  .jobj [("component", .jstr "input"), ("componentProps", .jobj []),
         ("field", .jstr "a"), ("label", .jstr "A")]

/-- The record the engine builds for `nodeDictAlias` under `envUp`. -/
def recC4 : JVal :=
  .jobj [("component", .jstr "input"),
         ("componentProps", .jobj [("optionsAlias", .jobj [("labelField", .jstr "alt")]),
            ("options", .jarr [.jobj [("label", .jstr "X"), ("labelField", .jstr "y")]])]),
         ("field", .jstr "f"), ("label", .jstr "F")]

/-- A tree with a healthy node followed by a node naming a missing
dictionary entry. -/
def treeC3W : List JVal := [nodeShowT, nodeDictMissing]

theorem objGet_objSet_self (kvs : List (String × JVal)) (k : String) (v : JVal) :
    objGet (objSet kvs k v) k = v := by
  induction kvs with
  | nil => simp [objSet, objGet]
  | cons p rest ih =>
      obtain ⟨k', v'⟩ := p
      by_cases h : k' = k <;> simp [objSet, objGet, h, ih]

theorem objGet_objSet_ne (kvs : List (String × JVal)) (k k' : String) (v : JVal)
    (h : k' ≠ k) : objGet (objSet kvs k v) k' = objGet kvs k' := by
  induction kvs with
  | nil =>
      simp only [objSet, objGet]
      rw [if_neg (fun hh => h hh.symm)]
  | cons p rest ih =>
      obtain ⟨k1, v1⟩ := p
      by_cases h1 : k1 = k
      · subst h1
        simp only [objSet, if_pos rfl, objGet]
        rw [if_neg (fun hh => h hh.symm), if_neg (fun hh => h hh.symm)]
      · simp only [objSet, if_neg h1, objGet]
        by_cases h2 : k1 = k'
        · rw [if_pos h2, if_pos h2]
        · rw [if_neg h2, if_neg h2]
          exact ih

theorem objDelete_cons (k1 : String) (v1 : JVal) (rest : List (String × JVal)) (k : String) :
    objDelete ((k1, v1) :: rest) k =
      if k1 = k then objDelete rest k else (k1, v1) :: objDelete rest k := by
  by_cases h : k1 = k
  · have hb : (k1 == k) = true := by simp [h]
    simp [objDelete, List.filter, hb, h]
  · have hb : (k1 == k) = false := by simp [h]
    simp [objDelete, List.filter, hb, h]

theorem objHas_cons (k1 : String) (v1 : JVal) (rest : List (String × JVal)) (k : String) :
    objHas ((k1, v1) :: rest) k = ((k1 == k) || objHas rest k) := by
  simp [objHas]

theorem objGet_objDelete (kvs : List (String × JVal)) (k k' : String) :
    objGet (objDelete kvs k) k' = if k' = k then JVal.jundefined else objGet kvs k' := by
  induction kvs with
  | nil => by_cases h : k' = k <;> simp [objDelete, objGet, h]
  | cons p rest ih =>
      obtain ⟨k1, v1⟩ := p
      rw [objDelete_cons]
      by_cases h1 : k1 = k
      · rw [if_pos h1, ih]
        by_cases h2 : k' = k
        · simp [h2]
        · rw [if_neg h2, if_neg h2]
          simp only [objGet]
          rw [if_neg (fun hh : k1 = k' => h2 (hh ▸ h1))]
      · rw [if_neg h1]
        simp only [objGet]
        by_cases h3 : k1 = k'
        · rw [if_pos h3, if_neg (fun hh : k' = k => h1 (h3.trans hh)), if_pos h3]
        · rw [if_neg h3, ih]
          by_cases h2 : k' = k <;> simp [h2, h3]

theorem objSet_objSet_self (kvs : List (String × JVal)) (k : String) (v w : JVal) :
    objSet (objSet kvs k v) k w = objSet kvs k w := by
  induction kvs with
  | nil => simp [objSet]
  | cons p rest ih =>
      obtain ⟨k1, v1⟩ := p
      by_cases h1 : k1 = k <;> simp [objSet, h1, ih]

theorem objDelete_objSet_self (kvs : List (String × JVal)) (k : String) (v : JVal) :
    objDelete (objSet kvs k v) k = objDelete kvs k := by
  induction kvs with
  | nil => simp [objSet, objDelete, List.filter]
  | cons p rest ih =>
      obtain ⟨k1, v1⟩ := p
      by_cases h1 : k1 = k
      · subst h1
        simp [objSet, objDelete_cons]
      · simp [objSet, h1, objDelete_cons, ih]

theorem objHas_objSet (kvs : List (String × JVal)) (k k' : String) (v : JVal) :
    objHas (objSet kvs k v) k' = (objHas kvs k' || (k' == k)) := by
  induction kvs with
  | nil => simp [objSet, objHas, BEq.comm]
  | cons p rest ih =>
      obtain ⟨k1, v1⟩ := p
      by_cases h1 : k1 = k
      · subst h1
        rw [show objSet ((k1, v1) :: rest) k1 v = (k1, v) :: rest from by simp [objSet]]
        rw [objHas_cons, objHas_cons]
        by_cases h2 : k1 = k' <;> by_cases h3 : objHas rest k' <;>
          simp [h2, h3, BEq.comm]
      · rw [show objSet ((k1, v1) :: rest) k v = (k1, v1) :: objSet rest k v from by
            simp [objSet, h1]]
        rw [objHas_cons, objHas_cons, ih, Bool.or_assoc]

theorem keysNoDup_objSet (kvs : List (String × JVal)) (k : String) (v : JVal)
    (h : keysNoDup kvs = true) : keysNoDup (objSet kvs k v) = true := by
  induction kvs with
  | nil => simp [objSet, keysNoDup, objHas]
  | cons p rest ih =>
      obtain ⟨k1, v1⟩ := p
      simp only [keysNoDup, Bool.and_eq_true, Bool.not_eq_true'] at h
      by_cases h1 : k1 = k
      · subst h1
        rw [show objSet ((k1, v1) :: rest) k1 v = (k1, v) :: rest from by simp [objSet]]
        simp [keysNoDup, h.1, h.2]
      · rw [show objSet ((k1, v1) :: rest) k v = (k1, v1) :: objSet rest k v from by
            simp [objSet, h1]]
        simp only [keysNoDup, Bool.and_eq_true, Bool.not_eq_true']
        refine ⟨?_, ih h.2⟩
        rw [objHas_objSet, h.1]
        simp [h1]

theorem spreadInto_obj_cons (acc : List (String × JVal)) (k1 : String) (v1 : JVal)
    (rest : List (String × JVal)) :
    spreadInto acc (.jobj ((k1, v1) :: rest)) = spreadInto (objSet acc k1 v1) (.jobj rest) := by
  simp [spreadInto]

theorem objGet_spread_obj (src : List (String × JVal)) :
    ∀ (acc : List (String × JVal)) (k : String), keysNoDup src = true →
    objGet (spreadInto acc (.jobj src)) k =
      (if objHas src k then objGet src k else objGet acc k) := by
  induction src with
  | nil => intro acc k _; simp [spreadInto, objHas, objGet]
  | cons p rest ih =>
      intro acc k hnd
      obtain ⟨k1, v1⟩ := p
      simp only [keysNoDup, Bool.and_eq_true, Bool.not_eq_true'] at hnd
      rw [spreadInto_obj_cons, ih (objSet acc k1 v1) k hnd.2, objHas_cons]
      by_cases h1 : k1 = k
      · subst h1
        rw [hnd.1]
        simp only [objGet, if_pos rfl, beq_self_eq_true, Bool.true_or, if_true,
          Bool.false_eq_true, if_false]
        exact objGet_objSet_self acc k1 v1
      · have hb : (k1 == k) = false := by simp [h1]
        rw [hb]
        simp only [Bool.false_or, objGet, if_neg h1]
        by_cases h2 : objHas rest k
        · simp [h2]
        · simp only [h2, Bool.false_eq_true, if_false]
          exact objGet_objSet_ne acc k1 k v1 (fun hh => h1 hh.symm)

theorem keysNoDup_spread (v : JVal) :
    ∀ (acc : List (String × JVal)), keysNoDup acc = true →
    keysNoDup (spreadInto acc v) = true := by
  match v with
  | .jobj src =>
      induction src with
      | nil => intro acc h; simpa [spreadInto] using h
      | cons p rest ih =>
          intro acc h
          obtain ⟨k1, v1⟩ := p
          rw [spreadInto_obj_cons]
          exact ih (objSet acc k1 v1) (keysNoDup_objSet acc k1 v1 h)
  | .jundefined | .jnull | .jbool _ | .jnum _ | .jstr _ | .jarr _ | .jfunRej | .jfunRes _ =>
      intro acc h; simpa [spreadInto] using h

theorem preorderKVs_eq (kvs : List (String × JVal)) :
    preorderKVs kvs = preorder (match objGet kvs "children" with
                                | .jarr xs => xs
                                | _ => []) := by
  induction kvs with
  | nil => simp [preorderKVs, objGet, preorder]
  | cons p rest ih =>
      obtain ⟨k, v⟩ := p
      by_cases hk : k = "children"
      · cases v <;> simp [preorderKVs, preorderChild, objGet, hk, preorder]
      · simp [preorderKVs, hk, objGet, ih]

theorem preorder_cons (n : JVal) (rest : List JVal) :
    preorder (n :: rest) = n :: (preorder (childrenOf n) ++ preorder rest) := by
  rw [preorder]
  cases n with
  | jobj kvs => rw [preorderNode, preorderKVs_eq]; rfl
  | jundefined => rfl
  | jnull => rfl
  | jbool b => rfl
  | jnum m => rfl
  | jstr s => rfl
  | jarr xs => rfl
  | jfunRej => rfl
  | jfunRes r => rfl

theorem preorder_append (a b : List JVal) :
    preorder (a ++ b) = preorder a ++ preorder b := by
  induction a with
  | nil => simp [preorder]
  | cons n rest ih => simp [preorder_cons, ih]

theorem treeMapMapped_eq (conv : JVal → Option JVal) (kvs : List (String × JVal)) :
    treeMapMapped conv kvs = (match objGet kvs "children" with
                              | .jarr xs => some (treeMapList conv xs)
                              | _ => none) := by
  induction kvs with
  | nil => simp [treeMapMapped, objGet]
  | cons p rest ih =>
      obtain ⟨k, v⟩ := p
      by_cases hk : k = "children"
      · cases v <;> simp [treeMapMapped, treeMapChild, objGet, hk]
      · simp [treeMapMapped, hk, objGet, ih]

theorem treeMapNode_eq (conv : JVal → Option JVal) (n : JVal) :
    treeMapNode conv n =
      (match jGet n "children" with
       | .jarr xs => jSet ((conv n).getD (.jobj [])) "children" (.jarr (treeMapList conv xs))
       | _ => (conv n).getD (.jobj [])) := by
  cases n with
  | jobj kvs =>
      rw [treeMapNode, treeMapMapped_eq]
      cases h : objGet kvs "children" <;> simp [jGet, h]
  | jundefined => rfl
  | jnull => rfl
  | jbool b => rfl
  | jnum m => rfl
  | jstr s => rfl
  | jarr xs => rfl
  | jfunRej => rfl
  | jfunRes r => rfl

theorem treeFilterKVs_eq (p : JVal → Bool) (kvs : List (String × JVal)) :
    treeFilterKVs p kvs = treeFilterList p (match objGet kvs "children" with
                                            | .jarr xs => xs
                                            | _ => []) := by
  induction kvs with
  | nil => simp [treeFilterKVs, objGet, treeFilterList]
  | cons q rest ih =>
      obtain ⟨k, v⟩ := q
      by_cases hk : k = "children"
      · cases v <;> simp [treeFilterKVs, treeFilterChild, objGet, hk, treeFilterList]
      · simp [treeFilterKVs, hk, objGet, ih]

theorem treeFilterKids_eq (p : JVal → Bool) (n : JVal) :
    treeFilterKids p n = treeFilterList p (childrenOf n) := by
  cases n with
  | jobj kvs => rw [treeFilterKids, treeFilterKVs_eq]; rfl
  | jundefined => rfl
  | jnull => rfl
  | jbool b => rfl
  | jnum m => rfl
  | jstr s => rfl
  | jarr xs => rfl
  | jfunRej => rfl
  | jfunRes r => rfl

theorem treeFilterList_cons (p : JVal → Bool) (n : JVal) (rest : List JVal) :
    treeFilterList p (n :: rest) =
      (let kids := treeFilterList p (childrenOf n)
       let m := if kids.isEmpty then jDelete n "children" else jSet n "children" (.jarr kids)
       if p m then [m] else []) ++ treeFilterList p rest := by
  rw [treeFilterList, treeFilterKids_eq]

theorem wfChildren_eq (kvs : List (String × JVal)) :
    wfChildren kvs = (match objGet kvs "children" with
                      | .jarr xs => wfList xs
                      | .jundefined => true
                      | _ => false) := by
  induction kvs with
  | nil => simp [wfChildren, objGet]
  | cons p rest ih =>
      obtain ⟨k, v⟩ := p
      by_cases hk : k = "children"
      · cases v <;> simp [wfChildren, wfChildVal, objGet, hk]
      · simp [wfChildren, hk, objGet, ih]

theorem wfNode_parts {kvs : List (String × JVal)} (h : wfNode (.jobj kvs) = true) :
    keysNoDup kvs = true ∧ blockOk (objGet kvs "search") = true ∧
    blockOk (objGet kvs "table") = true ∧ blockOk (objGet kvs "form") = true ∧
    blockOk (objGet kvs "detail") = true ∧ wfChildren kvs = true := by
  rw [wfNode] at h
  simpa [Bool.and_eq_true, and_assoc] using h

theorem wfList_parts {n : JVal} {rest : List JVal} (h : wfList (n :: rest) = true) :
    wfNode n = true ∧ wfList rest = true := by
  rw [wfList] at h
  simpa [Bool.and_eq_true] using h

theorem wfNode_childrenWf (n : JVal) (h : wfNode n = true) :
    wfList (childrenOf n) = true := by
  cases n with
  | jobj kvs =>
      have hc := (wfNode_parts h).2.2.2.2.2
      rw [wfChildren_eq] at hc
      rw [childrenOf]
      simp only [jGet]
      cases hcv : objGet kvs "children" <;> rw [hcv] at hc <;>
        simp_all [wfList]
  | jundefined => simp [childrenOf, jGet, wfList]
  | jnull => simp [childrenOf, jGet, wfList]
  | jbool b => simp [childrenOf, jGet, wfList]
  | jnum m => simp [childrenOf, jGet, wfList]
  | jstr s => simp [childrenOf, jGet, wfList]
  | jarr xs => simp [childrenOf, jGet, wfList]
  | jfunRej => simp [childrenOf, jGet, wfList]
  | jfunRes r => simp [childrenOf, jGet, wfList]

mutual
theorem wfPre : ∀ (l : List JVal), wfList l = true → ∀ n, n ∈ preorder l → wfNode n = true
  | [] => by
      intro _ n hn
      rw [preorder] at hn
      cases hn
  | m :: rest => by
      intro h n hn
      obtain ⟨hm, hr⟩ := wfList_parts h
      rw [preorder] at hn
      rcases List.mem_cons.mp hn with rfl | hn2
      · exact hm
      rcases List.mem_append.mp hn2 with h3 | h4
      · exact wfPreNode m hm n h3
      · exact wfPre rest hr n h4

theorem wfPreNode : ∀ (m : JVal), wfNode m = true → ∀ n, n ∈ preorderNode m → wfNode n = true
  | .jobj kvs => by
      intro hm n hn
      rw [preorderNode] at hn
      exact wfPreKVs kvs (wfNode_parts hm).2.2.2.2.2 n hn
  | .jundefined => by intro _ n hn; simp [preorderNode] at hn
  | .jnull => by intro _ n hn; simp [preorderNode] at hn
  | .jbool _ => by intro _ n hn; simp [preorderNode] at hn
  | .jnum _ => by intro _ n hn; simp [preorderNode] at hn
  | .jstr _ => by intro _ n hn; simp [preorderNode] at hn
  | .jarr _ => by intro _ n hn; simp [preorderNode] at hn
  | .jfunRej => by intro _ n hn; simp [preorderNode] at hn
  | .jfunRes _ => by intro _ n hn; simp [preorderNode] at hn

theorem wfPreKVs : ∀ (kvs : List (String × JVal)), wfChildren kvs = true →
    ∀ n, n ∈ preorderKVs kvs → wfNode n = true
  | [] => by
      intro _ n hn
      rw [preorderKVs] at hn
      cases hn
  | (k, v) :: rest => by
      intro h n hn
      rw [preorderKVs] at hn
      rw [wfChildren] at h
      by_cases hk : k = "children"
      · rw [if_pos hk] at hn h
        exact wfPreChild v h n hn
      · rw [if_neg hk] at hn h
        exact wfPreKVs rest h n hn

theorem wfPreChild : ∀ (v : JVal), wfChildVal v = true → ∀ n, n ∈ preorderChild v → wfNode n = true
  | .jarr xs => by
      intro h n hn
      rw [preorderChild] at hn
      exact wfPre xs (by rw [wfChildVal] at h; exact h) n hn
  | .jundefined => by intro _ n hn; simp [preorderChild] at hn
  | .jnull => by intro _ n hn; simp [preorderChild] at hn
  | .jbool _ => by intro _ n hn; simp [preorderChild] at hn
  | .jnum _ => by intro _ n hn; simp [preorderChild] at hn
  | .jstr _ => by intro _ n hn; simp [preorderChild] at hn
  | .jobj _ => by intro _ n hn; simp [preorderChild] at hn
  | .jfunRej => by intro _ n hn; simp [preorderChild] at hn
  | .jfunRes _ => by intro _ n hn; simp [preorderChild] at hn
end

theorem searchFold_char (env : SearchEnv) :
    ∀ (ns : List JVal) (acc : List JVal × List TaskDesc) (out : List JVal) (tds : List TaskDesc),
    ns.foldlM (searchStep env) acc = Except.ok (out, tds) →
    ∃ out2, out = acc.1 ++ out2 ∧ List.Forall₂ (searchRel env) (ns.filter visibleSearch) out2 := by
  intro ns
  induction ns with
  | nil =>
      intro acc out tds h
      simp only [List.foldlM_nil] at h
      refine ⟨[], ?_, ?_⟩
      · have hacc : acc = (out, tds) := by
          simpa [pure, Except.pure] using h
        rw [hacc]
        simp
      · simp
  | cons n rest ih =>
      intro acc out tds h
      rw [List.foldlM_cons] at h
      by_cases hv : visibleSearch n
      · rw [searchStep, if_pos hv] at h
        cases hb : buildSearchE env n with
        | error e =>
            rw [hb] at h
            simp [Bind.bind, Except.bind] at h
        | ok rt =>
            obtain ⟨r, topt⟩ := rt
            rw [hb] at h
            simp only [Bind.bind, Except.bind] at h
            obtain ⟨out2, ho, hrel⟩ := ih _ out tds h
            refine ⟨[r] ++ out2, ?_, ?_⟩
            · simpa [List.append_assoc] using ho
            · rw [List.filter_cons, if_pos hv]
              exact List.Forall₂.cons ⟨topt, hb⟩ hrel
      · rw [searchStep, if_neg hv] at h
        simp only [Bind.bind, Except.bind] at h
        obtain ⟨out2, ho, hrel⟩ := ih _ out tds h
        refine ⟨out2, ho, ?_⟩
        rw [List.filter_cons]
        simp [hv, hrel]

theorem filterSearch_char (env : SearchEnv) (l : List JVal) (out : List JVal)
    (tds : List TaskDesc) (h : filterSearchSchemaE env l = Except.ok (out, tds)) :
    List.Forall₂ (searchRel env) ((preorder l).filter visibleSearch) out := by
  rw [filterSearchSchemaE] at h
  obtain ⟨out2, ho, hrel⟩ := searchFold_char env (preorder l) ([], []) out tds h
  have ho2 : out = out2 := by simpa using ho
  rw [ho2]
  exact hrel

theorem foldl_push (p : JVal → Bool) (f : JVal → JVal) :
    ∀ (ns : List JVal) (acc : List JVal),
    ns.foldl (fun a n => if p n then a ++ [f n] else a) acc = acc ++ (ns.filter p).map f := by
  intro ns
  induction ns with
  | nil => intro acc; simp
  | cons n rest ih =>
      intro acc
      by_cases h : p n <;> simp [List.filter_cons, h, ih]

theorem foldlM_error {α β : Type} (f : β → α → Except Unit β) (x : α) :
    ∀ (ns : List α), x ∈ ns → (∀ acc, f acc x = Except.error ()) →
    ∀ (a : β), ns.foldlM f a = Except.error () := by
  intro ns
  induction ns with
  | nil => intro hm; cases hm
  | cons y ys ih =>
      intro hm hf a
      rw [List.foldlM_cons]
      rcases List.mem_cons.mp hm with rfl | hm2
      · rw [hf a]
        simp [Bind.bind, Except.bind]
      · cases hy : f a y with
        | error e => simp [Bind.bind, Except.bind]
        | ok b =>
            simp only [Bind.bind, Except.bind]
            exact ih hm2 hf b

theorem jGet_jobj (kvs : List (String × JVal)) (k : String) :
    jGet (.jobj kvs) k = objGet kvs k := rfl

theorem visibleSearch_wf (n : JVal) (h : wfNode n = true) :
    visibleSearch n = (jGet (jGet n "search") "show" == JVal.jbool true) := by
  cases n with
  | jobj kvs =>
      have hb := (wfNode_parts h).2.1
      rw [visibleSearch, jGet_jobj]
      cases hsv : objGet kvs "search" with
      | jundefined => decide
      | jobj bkvs =>
          rw [hsv] at hb
          rw [blockOk] at hb
          simp only [Bool.and_eq_true] at hb
          rw [jGet_jobj]
          cases hshow : objGet bkvs "show" with
          | jundefined => decide
          | jbool b => cases b <;> decide
          | jnull => rw [hshow] at hb; simp at hb
          | jnum m => rw [hshow] at hb; simp at hb
          | jstr str => rw [hshow] at hb; simp at hb
          | jarr xs => rw [hshow] at hb; simp at hb
          | jobj b2 => rw [hshow] at hb; simp at hb
          | jfunRej => rw [hshow] at hb; simp at hb
          | jfunRes r => rw [hshow] at hb; simp at hb
      | jnull => rw [hsv] at hb; simp [blockOk] at hb
      | jbool b => rw [hsv] at hb; simp [blockOk] at hb
      | jnum m => rw [hsv] at hb; simp [blockOk] at hb
      | jstr str => rw [hsv] at hb; simp [blockOk] at hb
      | jarr xs => rw [hsv] at hb; simp [blockOk] at hb
      | jfunRej => rw [hsv] at hb; simp [blockOk] at hb
      | jfunRes r => rw [hsv] at hb; simp [blockOk] at hb
  | jundefined => simp [wfNode] at h
  | jnull => simp [wfNode] at h
  | jbool b => simp [wfNode] at h
  | jnum m => simp [wfNode] at h
  | jstr str => simp [wfNode] at h
  | jarr xs => simp [wfNode] at h
  | jfunRej => simp [wfNode] at h
  | jfunRes r => simp [wfNode] at h

/-- Claim C10: the spec describes hexadecimal-digit substitution (every `x`
one hex digit, the `y` one of `8`/`9`/`a`/`b`).  The source computes the
right nibble values but renders them with `v.toString()` — no radix, so
DECIMAL: a draw of 15 yields the two-character string "15" and the `y`
position yields "8"/"9"/"10"/"11", never "a"/"b".  Evaluating the embedded
source at the all-15 draw sequence shows the output (51 characters) cannot
match the claimed 29-character template. -/
theorem claim_C10_toAnyString_decimal_not_hex :
    toAnyString draws15 = "1515151515-1515151515-415151515-1115151515-1515151515" ∧
    (toAnyString draws15).length ≠ 29 := by
  constructor
  · rfl
  · decide

/-- Claim C9: with no `labelField` argument and an uppercasing translator,
`[{label:"x"}]` maps to `[{label:"X"}]`; with a truthy `labelField`
argument the record's key literally named `labelField` is both read (the
pre-translation value) and written (the translated value) — the key the
argument names (`alt`) is never touched. -/
theorem claim_C9_filterOptions_literal_labelField :
    filterOptionsE jUpper (.jarr [.jobj [("label", .jstr "x")]]) .jundefined =
      Except.ok (.jarr [.jobj [("label", .jstr "X")]]) ∧
    filterOptionsE jUpper
        (.jarr [.jobj [("label", .jstr "x"), ("labelField", .jstr "y"), ("alt", .jstr "z")]])
        (.jstr "alt") =
      Except.ok (.jarr [.jobj [("label", .jstr "x"), ("labelField", .jstr "Y"),
        ("alt", .jstr "z")]]) ∧
    (∀ (t : JVal → JVal) (kvs : List (String × JVal)) (lf : JVal), truthy lf = true →
      translateOptRecord t lf (.jobj kvs) =
        Except.ok (.jobj (objSet kvs "labelField" (t (objGet kvs "labelField"))))) := by
  refine ⟨by decide, by decide, fun t kvs lf hlf => ?_⟩
  rw [translateOptRecord, if_pos hlf]

theorem claim_C9_witness :
    truthy (JVal.jstr "alt") = true ∧
    translateOptRecord jUpper (.jstr "alt")
        (.jobj [("label", .jstr "x"), ("labelField", .jstr "y")]) =
      Except.ok (.jobj [("label", .jstr "x"), ("labelField", .jstr "Y")]) := by
  refine ⟨by decide, ?_⟩
  rw [claim_C9_filterOptions_literal_labelField.2.2 jUpper
    [("label", .jstr "x"), ("labelField", .jstr "y")] (.jstr "alt") (by decide)]
  decide

/-- Claim C5: a deferred api task that rejected (`out = none`, which also
covers a truthy non-callable `api` — the exception dies inside the
detached task) or resolved with a falsy result leaves the search schema
state entirely untouched, and `applyTask` is total, so no error reaches
the caller. -/
theorem claim_C5_failed_fetch_no_update (env : SearchEnv) (st : List JVal) (td : TaskDesc)
    (h : td.out = none ∨ ∃ res, td.out = some res ∧ truthy res = false) :
    applyTask env st td = st := by
  rcases h with h | ⟨res, hres, hf⟩
  · simp [applyTask, h]
  · simp [applyTask, hres, hf]

theorem claim_C5_witness :
    applyTask envNone stW tdRej = stW ∧ applyTask envNone stW tdEmpty = stW :=
  ⟨claim_C5_failed_fetch_no_update envNone stW tdRej (Or.inl rfl),
   claim_C5_failed_fetch_no_update envNone stW tdEmpty (Or.inr ⟨.jundefined, rfl, rfl⟩)⟩

theorem findIndex_first (st : List JVal) (p : JVal → Bool) (i : Nat)
    (h : findIndex st p = (i : Int)) :
    st.findIdx? p = some i ∧ ∀ j, j < i → ∀ rj, st[j]? = some rj → p rj = false := by
  rw [findIndex] at h
  cases hf : st.findIdx? p with
  | none =>
      rw [hf] at h
      simp at h
  | some j =>
      rw [hf] at h
      simp only [Int.natCast_inj] at h
      have hj : j = i := by exact_mod_cast h
      subst hj
      refine ⟨rfl, ?_⟩
      obtain ⟨hlen, hp, hfirst⟩ := List.findIdx?_eq_some_iff_getElem.mp hf
      intro k hk rk hrk
      obtain ⟨hklen, hrk2⟩ := List.getElem?_eq_some.mp hrk
      have hnp := hfirst k hk
      rw [hrk2] at hnp
      simpa using hnp

/-- Claim C6: when a deferred task resolves with a truthy result, exactly
one record — the one at the first index whose `field` equals the
scheduling record's captured `field` — has `componentProps.options`
overwritten with the translated `res.data`; every record at any other
index, every other key of the patched record, and every other key of its
`componentProps`, is left unchanged. -/
theorem claim_C6_task_patches_first_match (env : SearchEnv) (st : List JVal) (td : TaskDesc)
    (res : JVal) (i : Nat) (r : JVal) (cp2 : List (String × JVal)) (opts : JVal)
    (hout : td.out = some res) (hres : truthy res = true)
    (hidx : findIndex st (fun v => jGet v "field" == td.fld) = (i : Int))
    (hr : st[i]? = some r)
    (hcp1 : td.cp ≠ JVal.jundefined) (hcp2 : td.cp ≠ JVal.jnull)
    (hopts : filterOptionsE env.t (jGet res "data") (lfOf td.cp) = Except.ok opts)
    (hrcp : jGet r "componentProps" = JVal.jobj cp2) :
    applyTask env st td =
      st.set i (jSet r "componentProps" (.jobj (objSet cp2 "options" opts))) ∧
    (∀ j, j < i → ∀ rj, st[j]? = some rj → (jGet rj "field" == td.fld) = false) ∧
    (∀ j, j ≠ i → (applyTask env st td)[j]? = st[j]?) ∧
    (∀ k, k ≠ "componentProps" →
      jGet (jSet r "componentProps" (.jobj (objSet cp2 "options" opts))) k = jGet r k) ∧
    (∀ k, k ≠ "options" → objGet (objSet cp2 "options" opts) k = objGet cp2 k) := by
  have hpatch : patchRecord env res td r =
      some (jSet r "componentProps" (.jobj (objSet cp2 "options" opts))) := by
    rw [patchRecord, if_neg (by simp [hcp1, hcp2]), hopts, hrcp]
  have hmain : applyTask env st td =
      st.set i (jSet r "componentProps" (.jobj (objSet cp2 "options" opts))) := by
    rw [applyTask, hout]
    simp only [hres, if_true, hidx]
    rw [if_neg (by omega : ¬((i : Int) = -1))]
    rw [show ((i : Int)).toNat = i from Int.toNat_natCast i]
    rw [hr]
    show (match patchRecord env res td r with
          | none => st
          | some r2 => st.set i r2) = _
    rw [hpatch]
  obtain ⟨rkvs, hrobj⟩ : ∃ rkvs, r = JVal.jobj rkvs := by
    cases r with
    | jobj rkvs => exact ⟨rkvs, rfl⟩
    | jundefined => exact absurd hrcp (by simp [jGet])
    | jnull => exact absurd hrcp (by simp [jGet])
    | jbool b => exact absurd hrcp (by simp [jGet])
    | jnum m => exact absurd hrcp (by simp [jGet])
    | jstr s => exact absurd hrcp (by simp [jGet])
    | jarr xs => exact absurd hrcp (by simp [jGet])
    | jfunRej => exact absurd hrcp (by simp [jGet])
    | jfunRes w => exact absurd hrcp (by simp [jGet])
  refine ⟨hmain, (findIndex_first st _ i hidx).2, ?_, ?_, ?_⟩
  · intro j hj
    rw [hmain]
    exact List.getElem?_set_ne (fun hh => hj hh.symm)
  · intro k hk
    rw [hrobj]
    simp only [jSet, jGet_jobj]
    exact objGet_objSet_ne rkvs "componentProps" k _ hk
  · intro k hk
    exact objGet_objSet_ne cp2 "options" k opts hk

theorem claim_C6_witness :
    applyTask envNone stW tdRes =
      stW.set 1 (jSet recQ "componentProps"
        (.jobj (objSet [("x", .jnum 1)] "options"
          (.jarr [.jobj [("value", .jnum 1), ("label", .jstr "opt")]])))) :=
  (claim_C6_task_patches_first_match envNone stW tdRes
    (.jobj [("data", .jarr [.jobj [("value", .jnum 1), ("label", .jstr "opt")]])])
    1 recQ [("x", .jnum 1)]
    (.jarr [.jobj [("value", .jnum 1), ("label", .jstr "opt")]])
    rfl rfl (by decide) (by decide) (by decide) (by decide) (by decide) (by decide)).1

/-- Claim C4 counterexample: `nodeDictAlias` has `dictName: "d"` and a
present `componentProps.optionsAlias.labelField`, yet the record the
engine builds holds the options translated through the DEFAULT label key
(`filterOptions` is called with one argument in the dictName branch); the
labelField-override translation the claim asserts yields a different
list. -/
theorem claim_C4_counterexample :
    buildSearchE envUp nodeDictAlias = Except.ok (recC4, none) ∧
    truthy (jGet (jGet (objGet (searchItem0 nodeDictAlias) "componentProps")
      "optionsAlias") "labelField") = true ∧
    jGet (jGet recC4 "componentProps") "options" =
      .jarr [.jobj [("label", .jstr "X"), ("labelField", .jstr "y")]] ∧
    filterOptionsE envUp.t (dictLookup envUp (.jstr "d")) (.jstr "alt") =
      Except.ok (.jarr [.jobj [("label", .jstr "x"), ("labelField", .jstr "Y")]]) ∧
    (JVal.jarr [.jobj [("label", .jstr "X"), ("labelField", .jstr "y")]]) ≠
      (JVal.jarr [.jobj [("label", .jstr "x"), ("labelField", .jstr "Y")]]) := by
  refine ⟨by decide, by decide, by decide, by decide, by decide⟩

/-- Claim C4 (amended): in the dictName branch the option list is
translated WITHOUT the labelField override — `filterOptions` receives only
the dictionary list, the `undefined` second argument selecting the default
label key — and the translated list is assigned into
`componentProps.options` synchronously (no deferred task is scheduled for
such a record). -/
theorem claim_C4_dict_branch_ignores_labelField (env : SearchEnv) (n : JVal) (r : JVal)
    (topt : Option TaskDesc)
    (hdict : truthy (objGet (searchItem0 n) "dictName") = true)
    (_halias : truthy (jGet (jGet (objGet (searchItem0 n) "componentProps")
      "optionsAlias") "labelField") = true)
    (hok : buildSearchE env n = Except.ok (r, topt)) :
    topt = none ∧
    ∃ opts, filterOptionsE env.t
        (dictLookup env (objGet (searchItem0 n) "dictName")) .jundefined = Except.ok opts ∧
      jGet (jGet r "componentProps") "options" = opts := by
  rw [buildSearchE] at hok
  simp only [hdict, if_true] at hok
  cases hfo : filterOptionsE env.t (dictLookup env (objGet (searchItem0 n) "dictName"))
      JVal.jundefined with
  | error e => rw [hfo] at hok; cases hok
  | ok opts =>
      rw [hfo] at hok
      cases hcp : objGet (searchItem0 n) "componentProps" with
      | jobj cp =>
          rw [hcp] at hok
          obtain ⟨hrec, htopt⟩ : _ ∧ topt = none := by
            have := hok
            simp only [Except.ok.injEq, Prod.mk.injEq] at this
            exact ⟨this.1.symm, this.2.symm⟩
          refine ⟨htopt, opts, rfl, ?_⟩
          rw [hrec]
          rw [jGet_jobj, objGet_objDelete, objGet_objDelete]
          rw [if_neg (by decide), if_neg (by decide)]
          rw [objGet_objSet_self]
          rw [jGet_jobj, objGet_objSet_self]
      | jundefined => rw [hcp] at hok; cases hok
      | jnull => rw [hcp] at hok; cases hok
      | jbool b => rw [hcp] at hok; cases hok
      | jnum m => rw [hcp] at hok; cases hok
      | jstr s => rw [hcp] at hok; cases hok
      | jarr xs => rw [hcp] at hok; cases hok
      | jfunRej => rw [hcp] at hok; cases hok
      | jfunRes w => rw [hcp] at hok; cases hok

theorem claim_C4_witness :
    ∃ opts, filterOptionsE envUp.t
        (dictLookup envUp (objGet (searchItem0 nodeDictAlias) "dictName")) .jundefined =
        Except.ok opts ∧
      jGet (jGet recC4 "componentProps") "options" = opts :=
  (claim_C4_dict_branch_ignores_labelField envUp nodeDictAlias recC4 none
    (by decide) (by decide) (by decide)).2

/-- Claim C3 counterexample: a search node whose `dictName` names an entry
absent from the dictionary map makes the projection throw — the lookup
yields `undefined`, `filterOptions` calls `.map` on it, and the TypeError
propagates synchronously out of the engine instead of leaving the record's
option state at its default. -/
theorem claim_C3_counterexample :
    filterSearchSchemaE envNone [nodeDictMissing] = Except.error () := by decide

/-- Claim C3 (amended): whenever some visible search node carries a truthy
`dictName` that is absent from the dictionary map, the search projection
aborts with the propagated TypeError — it does not complete, and no record
with default option state is produced. -/
theorem claim_C3_missing_dict_throws (env : SearchEnv) (l : List JVal)
    (h : ∃ n, n ∈ preorder l ∧ visibleSearch n = true ∧
         truthy (objGet (searchItem0 n) "dictName") = true ∧
         env.dict (jPropKey (objGet (searchItem0 n) "dictName")) = none) :
    filterSearchSchemaE env l = Except.error () := by
  obtain ⟨n, hmem, hvis, hdn, hdict⟩ := h
  rw [filterSearchSchemaE]
  apply foldlM_error (searchStep env) n (preorder l) hmem
  intro acc
  have hb : buildSearchE env n = Except.error () := by
    rw [buildSearchE]
    simp only [hdn, if_true]
    rw [show dictLookup env (objGet (searchItem0 n) "dictName") = JVal.jundefined from by
      rw [dictLookup, hdict]]
    rfl
  rw [searchStep, if_pos hvis, hb]
  rfl

theorem claim_C3_witness :
    filterSearchSchemaE envNone treeC3W = Except.error () :=
  claim_C3_missing_dict_throws envNone treeC3W
    ⟨nodeDictMissing, by decide, by decide, by decide, rfl⟩

/-- Claim C1: given that the projection completes (`Except.ok`, see C3 for
the failure mode), the produced `searchSchema` consists of exactly the
records built for the pre-order nodes whose `search.show` is present and
`true`, in order — a node with `show` absent or `false` (the only other
values the `show?: boolean` type admits, enforced here by `wfList`)
contributes nothing. -/
theorem claim_C1_search_show_gate (env : SearchEnv) (l : List JVal) (out : List JVal)
    (tds : List TaskDesc) (hwf : wfList l = true)
    (h : filterSearchSchemaE env l = Except.ok (out, tds)) :
    List.Forall₂ (searchRel env)
      ((preorder l).filter (fun n => jGet (jGet n "search") "show" == JVal.jbool true))
      out := by
  have hf : List.filter visibleSearch (preorder l) =
      List.filter (fun n => jGet (jGet n "search") "show" == JVal.jbool true) (preorder l) :=
    List.filter_congr (fun n hn => visibleSearch_wf n (wfPre l hwf n hn))
  rw [← hf]
  exact filterSearch_char env l out tds h

theorem claim_C1_witness :
    List.Forall₂ (searchRel envNone)
      ((preorder treeW1).filter (fun n => jGet (jGet n "search") "show" == JVal.jbool true))
      [recW1] :=
  claim_C1_search_show_gate envNone treeW1 [recW1] [] (by decide) (by decide)

/-- Claim C8: the form and detail projections are flat lists equal to the
pre-order traversal restricted to their visible nodes, record-built
pointwise; the search projection, when it completes, likewise pairs the
visible pre-order nodes with its output records in order. -/
theorem claim_C8_flat_preorder_order (env : SearchEnv) (l : List JVal) (out : List JVal)
    (tds : List TaskDesc) :
    filterFormSchema l = ((preorder l).filter visibleForm).map buildForm ∧
    filterDescriptionsSchema l = ((preorder l).filter visibleDetail).map buildDetail ∧
    (filterSearchSchemaE env l = Except.ok (out, tds) →
      List.Forall₂ (searchRel env) ((preorder l).filter visibleSearch) out) := by
  refine ⟨?_, ?_, fun h => filterSearch_char env l out tds h⟩
  · rw [filterFormSchema]
    simpa using foldl_push visibleForm buildForm (preorder l) []
  · rw [filterDescriptionsSchema]
    simpa using foldl_push visibleDetail buildDetail (preorder l) []

theorem claim_C8_witness :
    filterFormSchema treeW1 = ((preorder treeW1).filter visibleForm).map buildForm ∧
    List.Forall₂ (searchRel envNone) ((preorder treeW1).filter visibleSearch) [recW1] :=
  ⟨(claim_C8_flat_preorder_order envNone treeW1 [recW1] []).1,
   (claim_C8_flat_preorder_order envNone treeW1 [recW1] []).2.2 (by decide)⟩

theorem searchItem0_field (n : JVal) : objGet (searchItem0 n) "field" = jGet n "field" := by
  rw [searchItem0]
  rw [objGet_objSet_ne _ _ _ _ (by decide), objGet_objSet_self]

theorem searchItem0_label (n : JVal) : objGet (searchItem0 n) "label" = jGet n "label" := by
  rw [searchItem0, objGet_objSet_self]

theorem buildSearch_identity (env : SearchEnv) (n r : JVal) (topt : Option TaskDesc)
    (hok : buildSearchE env n = Except.ok (r, topt)) :
    jGet r "field" = jGet n "field" ∧ jGet r "label" = jGet n "label" := by
  have hfin : ∀ kvs : List (String × JVal),
      r = JVal.jobj (objDelete (objDelete kvs "show") "dictName") →
      objGet kvs "field" = jGet n "field" → objGet kvs "label" = jGet n "label" →
      jGet r "field" = jGet n "field" ∧ jGet r "label" = jGet n "label" := by
    intro kvs hr hf hl
    rw [hr, jGet_jobj, jGet_jobj, objGet_objDelete, objGet_objDelete,
        objGet_objDelete, objGet_objDelete]
    rw [if_neg (by decide), if_neg (by decide), if_neg (by decide), if_neg (by decide)]
    exact ⟨hf, hl⟩
  rw [buildSearchE] at hok
  by_cases hdn : truthy (objGet (searchItem0 n) "dictName") = true
  · simp only [hdn, if_true] at hok
    cases hfo : filterOptionsE env.t (dictLookup env (objGet (searchItem0 n) "dictName"))
        JVal.jundefined with
    | error e => rw [hfo] at hok; cases hok
    | ok opts =>
        rw [hfo] at hok
        cases hcp : objGet (searchItem0 n) "componentProps" with
        | jobj cp =>
            rw [hcp] at hok
            simp only [Except.ok.injEq, Prod.mk.injEq] at hok
            refine hfin _ hok.1.symm ?_ ?_
            · rw [objGet_objSet_ne _ _ _ _ (by decide), searchItem0_field]
            · rw [objGet_objSet_ne _ _ _ _ (by decide), searchItem0_label]
        | jundefined => rw [hcp] at hok; cases hok
        | jnull => rw [hcp] at hok; cases hok
        | jbool b => rw [hcp] at hok; cases hok
        | jnum m => rw [hcp] at hok; cases hok
        | jstr s => rw [hcp] at hok; cases hok
        | jarr xs => rw [hcp] at hok; cases hok
        | jfunRej => rw [hcp] at hok; cases hok
        | jfunRes w => rw [hcp] at hok; cases hok
  · simp only [hdn, if_false, Bool.not_eq_true] at hok
    rw [if_neg (by simp_all)] at hok
    by_cases hapi : truthy (objGet (searchItem0 n) "api") = true
    · rw [if_pos hapi] at hok
      simp only [Except.ok.injEq, Prod.mk.injEq] at hok
      exact hfin _ hok.1.symm (searchItem0_field n) (searchItem0_label n)
    · rw [if_neg hapi] at hok
      simp only [Except.ok.injEq, Prod.mk.injEq] at hok
      exact hfin _ hok.1.symm (searchItem0_field n) (searchItem0_label n)

theorem objGet_not_has (kvs : List (String × JVal)) (k : String)
    (h : objHas kvs k = false) : objGet kvs k = JVal.jundefined := by
  induction kvs with
  | nil => rfl
  | cons p rest ih =>
      obtain ⟨k1, v1⟩ := p
      rw [objHas_cons] at h
      simp only [Bool.or_eq_false_iff] at h
      rw [objGet, if_neg (by simpa using h.1)]
      exact ih h.2

theorem mergeTable_get (kvs : List (String × JVal)) (k : String)
    (hnd : keysNoDup kvs = true) (hb : blockOk (objGet kvs "table") = true) :
    jGet (mergeTable (.jobj kvs)) k =
      (if objHas kvs k then objGet kvs k else jGet (objGet kvs "table") k) := by
  rw [mergeTable, jGet_jobj, jGet_jobj]
  rw [objGet_spread_obj kvs _ k hnd]
  by_cases hh : objHas kvs k
  · simp [hh]
  · simp only [hh, Bool.false_eq_true, if_false]
    cases htb : objGet kvs "table" with
    | jobj tbkvs =>
        rw [htb] at hb
        rw [blockOk] at hb
        simp only [Bool.and_eq_true] at hb
        rw [objGet_spread_obj tbkvs [] k hb.1.1, jGet_jobj]
        by_cases h2 : objHas tbkvs k
        · simp [h2]
        · rw [objGet_not_has tbkvs k (by simpa using h2)]
          simp [h2, objGet]
    | jundefined => simp [spreadInto, objGet, jGet]
    | jnull => rw [htb] at hb; simp [blockOk] at hb
    | jbool b => rw [htb] at hb; simp [blockOk] at hb
    | jnum m => rw [htb] at hb; simp [blockOk] at hb
    | jstr s => rw [htb] at hb; simp [blockOk] at hb
    | jarr xs => rw [htb] at hb; simp [blockOk] at hb
    | jfunRej => rw [htb] at hb; simp [blockOk] at hb
    | jfunRes w => rw [htb] at hb; simp [blockOk] at hb

theorem jHas_jobj (kvs : List (String × JVal)) (k : String) :
    jHas (.jobj kvs) k = objHas kvs k := rfl

/-- Claim C7 (amended): in the search, form and detail projections the
output record's `field`/`label` always equal the node's (the identity keys
are written literally after the view-block spread, so they win on every
conflict); in the table projection the node spread comes last, so identity
wins whenever the node itself carries the key — but a `field`/`label` key
absent from the node falls through to the table block's same-named stray
key instead of reflecting the node. -/
theorem claim_C7_identity_merge (env : SearchEnv) (n r : JVal) (topt : Option TaskDesc) :
    (buildSearchE env n = Except.ok (r, topt) →
      jGet r "field" = jGet n "field" ∧ jGet r "label" = jGet n "label") ∧
    (jGet (buildForm n) "field" = jGet n "field" ∧
      jGet (buildForm n) "label" = jGet n "label") ∧
    (jGet (buildDetail n) "field" = jGet n "field" ∧
      jGet (buildDetail n) "label" = jGet n "label") ∧
    (wfNode n = true →
      (jHas n "field" = true → jGet (mergeTable n) "field" = jGet n "field") ∧
      (jHas n "label" = true → jGet (mergeTable n) "label" = jGet n "label") ∧
      (jHas n "field" = false → jGet (mergeTable n) "field" = jGet (jGet n "table") "field") ∧
      (jHas n "label" = false →
        jGet (mergeTable n) "label" = jGet (jGet n "table") "label")) := by
  refine ⟨buildSearch_identity env n r topt, ?_, ?_, ?_⟩
  · constructor
    · simp only [buildForm, jGet_jobj, objGet_objDelete]
      rw [if_neg (by decide), objGet_objSet_ne _ _ _ _ (by decide), objGet_objSet_self]
    · simp only [buildForm, jGet_jobj, objGet_objDelete]
      rw [if_neg (by decide), objGet_objSet_self]
  · constructor
    · simp only [buildDetail, jGet_jobj, objGet_objDelete]
      rw [if_neg (by decide), objGet_objSet_ne _ _ _ _ (by decide), objGet_objSet_self]
    · simp only [buildDetail, jGet_jobj, objGet_objDelete]
      rw [if_neg (by decide), objGet_objSet_self]
  · intro hwf
    cases n with
    | jobj kvs =>
        have hp := wfNode_parts hwf
        have hg := fun k => mergeTable_get kvs k hp.1 hp.2.2.1
        refine ⟨fun hh => ?_, fun hh => ?_, fun hh => ?_, fun hh => ?_⟩ <;>
          (rw [jHas_jobj] at hh; rw [hg]; simp [hh, jGet_jobj])
    | jundefined => exact absurd hwf (by simp [wfNode])
    | jnull => exact absurd hwf (by simp [wfNode])
    | jbool b => exact absurd hwf (by simp [wfNode])
    | jnum m => exact absurd hwf (by simp [wfNode])
    | jstr s => exact absurd hwf (by simp [wfNode])
    | jarr xs => exact absurd hwf (by simp [wfNode])
    | jfunRej => exact absurd hwf (by simp [wfNode])
    | jfunRes w => exact absurd hwf (by simp [wfNode])

/-- Claim C7 counterexample: a node without its own `field` but with a
stray `field: "sneak"` inside its table block produces a table record
whose `field` is `"sneak"` while the node's `field` is `undefined` — the
output record's `field` does not equal the source node's, so the claim as
stated (identity wins in every projector) is false. -/
theorem claim_C7_counterexample :
    filterTableSchema [nodeSneak] =
      [.jobj [("field", .jstr "sneak"), ("label", .jstr "L"),
              ("table", .jobj [("field", .jstr "sneak")])]] ∧
    jGet (.jobj [("field", .jstr "sneak"), ("label", .jstr "L"),
              ("table", .jobj [("field", .jstr "sneak")])] : JVal) "field" =
      .jstr "sneak" ∧
    jGet nodeSneak "field" = JVal.jundefined ∧
    (JVal.jstr "sneak") ≠ JVal.jundefined := by
  refine ⟨by decide, by decide, by decide, by decide⟩

theorem claim_C7_witness :
    (jGet recW1 "field" = jGet nodeShowT "field" ∧
      jGet recW1 "label" = jGet nodeShowT "label") ∧
    jGet (mergeTable nodeShowT) "field" = jGet nodeShowT "field" :=
  ⟨(claim_C7_identity_merge envNone nodeShowT recW1 none).1 (by decide),
   ((claim_C7_identity_merge envNone nodeShowT recW1 none).2.2.2 (by decide)).1 (by decide)⟩

theorem treeFilterList_cons2 (p : JVal → Bool) (n : JVal) (rest : List JVal) :
    treeFilterList p (n :: rest) =
      (if p (if (treeFilterList p (childrenOf n)).isEmpty
             then jDelete n "children"
             else jSet n "children" (.jarr (treeFilterList p (childrenOf n))))
       then [if (treeFilterList p (childrenOf n)).isEmpty
             then jDelete n "children"
             else jSet n "children" (.jarr (treeFilterList p (childrenOf n)))] else [])
      ++ treeFilterList p rest := by
  rw [treeFilterList_cons]

theorem mergeTable_children_absent (kvs : List (String × JVal))
    (hnd : keysNoDup kvs = true) (hb : blockOk (objGet kvs "table") = true)
    (hch : objGet kvs "children" = JVal.jundefined) :
    jGet (mergeTable (.jobj kvs)) "children" = JVal.jundefined := by
  rw [mergeTable_get kvs "children" hnd hb]
  by_cases hh : objHas kvs "children"
  · simp [hh, hch]
  · simp only [hh, Bool.false_eq_true, if_false]
    cases htb : objGet kvs "table" with
    | jobj tbkvs =>
        rw [htb] at hb
        rw [blockOk] at hb
        simp only [Bool.and_eq_true, Bool.not_eq_true'] at hb
        rw [jGet_jobj, objGet_not_has tbkvs "children" hb.1.2]
    | jundefined => rfl
    | jnull => rw [htb] at hb; simp [blockOk] at hb
    | jbool b => rw [htb] at hb; simp [blockOk] at hb
    | jnum m => rw [htb] at hb; simp [blockOk] at hb
    | jstr s => rw [htb] at hb; simp [blockOk] at hb
    | jarr xs => rw [htb] at hb; simp [blockOk] at hb
    | jfunRej => rw [htb] at hb; simp [blockOk] at hb
    | jfunRes w => rw [htb] at hb; simp [blockOk] at hb

theorem tblShaped_get_ne (n : JVal) (k : String) (hk : k ≠ "children") :
    jGet (tblShaped n) k = jGet (mergeTable n) k := by
  rw [tblShaped, mergeTable]
  by_cases he : (filterTableSchema (childrenOf n)).isEmpty <;>
    simp only [he, if_true, if_false, Bool.false_eq_true] <;>
    simp only [jDelete, jSet, jGet_jobj, objGet_objDelete, objGet_objSet_ne _ _ _ _ hk,
      if_neg hk]

theorem childrenOf_tblShaped (n : JVal) :
    childrenOf (tblShaped n) = filterTableSchema (childrenOf n) := by
  rw [tblShaped, mergeTable]
  cases he : (filterTableSchema (childrenOf n)).isEmpty with
  | true =>
      simp only [if_true]
      rw [childrenOf]
      simp only [jDelete, jGet_jobj, objGet_objDelete, if_pos rfl]
      exact (List.isEmpty_iff.mp he).symm
  | false =>
      simp only [Bool.false_eq_true, if_false]
      rw [childrenOf]
      simp only [jSet, jGet_jobj, objGet_objSet_self]

theorem childrenOf_jSet_children (b : List (String × JVal)) (ys : List JVal) :
    childrenOf (jSet (.jobj b) "children" (.jarr ys)) = ys := by
  rw [jSet, childrenOf, jGet_jobj, objGet_objSet_self]

theorem tableBase_visible (n : JVal) (hv : visibleTable n = true) :
    (tableConv n).getD (.jobj []) = mergeTable n := by
  rw [tableConv, if_pos hv]
  rfl

theorem tableBase_hidden (n : JVal) (hv : visibleTable n = false) :
    (tableConv n).getD (.jobj []) = .jobj [] := by
  rw [tableConv, if_neg (by simp [hv])]
  rfl

theorem tableKids_eq (kvs : List (String × JVal)) (hwf : wfNode (.jobj kvs) = true) :
    treeFilterList tablePred (childrenOf (treeMapNode tableConv (.jobj kvs))) =
      filterTableSchema (childrenOf (.jobj kvs)) := by
  have hp := wfNode_parts hwf
  have hwc := hp.2.2.2.2.2
  rw [wfChildren_eq] at hwc
  rw [treeMapNode_eq, jGet_jobj]
  cases hch : objGet kvs "children" with
  | jarr xs =>
      rw [hch] at hwc
      cases hb : (tableConv (.jobj kvs)).getD (.jobj []) with
      | jobj bkvs =>
          rw [childrenOf_jSet_children]
          rw [childrenOf, jGet_jobj, hch]
          rfl
      | jundefined =>
          exact absurd hb (by
            by_cases hv : visibleTable (.jobj kvs) = true
            · rw [tableBase_visible _ hv, mergeTable]; simp
            · rw [tableBase_hidden _ (by simpa using hv)]; simp)
      | jnull =>
          exact absurd hb (by
            by_cases hv : visibleTable (.jobj kvs) = true
            · rw [tableBase_visible _ hv, mergeTable]; simp
            · rw [tableBase_hidden _ (by simpa using hv)]; simp)
      | jbool b2 =>
          exact absurd hb (by
            by_cases hv : visibleTable (.jobj kvs) = true
            · rw [tableBase_visible _ hv, mergeTable]; simp
            · rw [tableBase_hidden _ (by simpa using hv)]; simp)
      | jnum m =>
          exact absurd hb (by
            by_cases hv : visibleTable (.jobj kvs) = true
            · rw [tableBase_visible _ hv, mergeTable]; simp
            · rw [tableBase_hidden _ (by simpa using hv)]; simp)
      | jstr s =>
          exact absurd hb (by
            by_cases hv : visibleTable (.jobj kvs) = true
            · rw [tableBase_visible _ hv, mergeTable]; simp
            · rw [tableBase_hidden _ (by simpa using hv)]; simp)
      | jarr ys =>
          exact absurd hb (by
            by_cases hv : visibleTable (.jobj kvs) = true
            · rw [tableBase_visible _ hv, mergeTable]; simp
            · rw [tableBase_hidden _ (by simpa using hv)]; simp)
      | jfunRej =>
          exact absurd hb (by
            by_cases hv : visibleTable (.jobj kvs) = true
            · rw [tableBase_visible _ hv, mergeTable]; simp
            · rw [tableBase_hidden _ (by simpa using hv)]; simp)
      | jfunRes w =>
          exact absurd hb (by
            by_cases hv : visibleTable (.jobj kvs) = true
            · rw [tableBase_visible _ hv, mergeTable]; simp
            · rw [tableBase_hidden _ (by simpa using hv)]; simp)
  | jundefined =>
      have hchn : childrenOf (.jobj kvs) = [] := by
        rw [childrenOf, jGet_jobj, hch]
      rw [hchn]
      by_cases hv : visibleTable (.jobj kvs) = true
      · rw [tableBase_visible _ hv]
        rw [show childrenOf (mergeTable (.jobj kvs)) = [] from by
          rw [childrenOf, mergeTable_children_absent kvs hp.1 hp.2.2.1 hch]]
        rfl
      · rw [tableBase_hidden _ (by simpa using hv)]
        rfl
  | jnull => rw [hch] at hwc; cases hwc
  | jbool b2 => rw [hch] at hwc; cases hwc
  | jnum m => rw [hch] at hwc; cases hwc
  | jstr s => rw [hch] at hwc; cases hwc
  | jobj b3 => rw [hch] at hwc; cases hwc
  | jfunRej => rw [hch] at hwc; cases hwc
  | jfunRes w => rw [hch] at hwc; cases hwc

theorem tableShape_visible (kvs : List (String × JVal)) (hwf : wfNode (.jobj kvs) = true)
    (hv : visibleTable (.jobj kvs) = true) :
    (if (filterTableSchema (childrenOf (.jobj kvs))).isEmpty
     then jDelete (treeMapNode tableConv (.jobj kvs)) "children"
     else jSet (treeMapNode tableConv (.jobj kvs)) "children"
       (.jarr (filterTableSchema (childrenOf (.jobj kvs))))) = tblShaped (.jobj kvs) := by
  have hp := wfNode_parts hwf
  have hwc := hp.2.2.2.2.2
  rw [wfChildren_eq] at hwc
  rw [treeMapNode_eq, jGet_jobj]
  cases hch : objGet kvs "children" with
  | jarr xs =>
      rw [tableBase_visible _ hv]
      rw [show mergeTable (.jobj kvs) =
        .jobj (spreadInto (spreadInto [] (jGet (.jobj kvs) "table")) (.jobj kvs)) from rfl]
      rw [tblShaped]
      cases he : (filterTableSchema (childrenOf (.jobj kvs))).isEmpty with
      | true =>
          simp only [if_true]
          rw [show mergeTable (.jobj kvs) =
            .jobj (spreadInto (spreadInto [] (jGet (.jobj kvs) "table")) (.jobj kvs)) from rfl]
          simp only [jSet, jDelete]
          rw [objDelete_objSet_self]
      | false =>
          simp only [Bool.false_eq_true, if_false]
          rw [show mergeTable (.jobj kvs) =
            .jobj (spreadInto (spreadInto [] (jGet (.jobj kvs) "table")) (.jobj kvs)) from rfl]
          simp only [jSet]
          rw [objSet_objSet_self]
  | jundefined =>
      rw [tableBase_visible _ hv, tblShaped]
  | jnull => rw [hch] at hwc; cases hwc
  | jbool b2 => rw [hch] at hwc; cases hwc
  | jnum m => rw [hch] at hwc; cases hwc
  | jstr s => rw [hch] at hwc; cases hwc
  | jobj b3 => rw [hch] at hwc; cases hwc
  | jfunRej => rw [hch] at hwc; cases hwc
  | jfunRes w => rw [hch] at hwc; cases hwc

theorem tableHidden_pred (n : JVal) (hv : visibleTable n = false)
    (kids : List JVal) :
    tablePred (if kids.isEmpty
               then jDelete (treeMapNode tableConv n) "children"
               else jSet (treeMapNode tableConv n) "children" (.jarr kids)) = false := by
  rw [treeMapNode_eq, tableBase_hidden n hv]
  cases hch : jGet n "children" with
  | jarr xs =>
      cases he : kids.isEmpty <;>
        simp [he, jSet, jDelete, tablePred, objSet, objDelete, List.filter, jGet_jobj,
          objGet, truthy]
  | jundefined =>
      cases he : kids.isEmpty <;>
        simp [he, jSet, jDelete, tablePred, objSet, objDelete, List.filter, jGet_jobj,
          objGet, truthy]
  | jnull =>
      cases he : kids.isEmpty <;>
        simp [he, jSet, jDelete, tablePred, objSet, objDelete, List.filter, jGet_jobj,
          objGet, truthy]
  | jbool b2 =>
      cases he : kids.isEmpty <;>
        simp [he, jSet, jDelete, tablePred, objSet, objDelete, List.filter, jGet_jobj,
          objGet, truthy]
  | jnum m =>
      cases he : kids.isEmpty <;>
        simp [he, jSet, jDelete, tablePred, objSet, objDelete, List.filter, jGet_jobj,
          objGet, truthy]
  | jstr s =>
      cases he : kids.isEmpty <;>
        simp [he, jSet, jDelete, tablePred, objSet, objDelete, List.filter, jGet_jobj,
          objGet, truthy]
  | jobj b3 =>
      cases he : kids.isEmpty <;>
        simp [he, jSet, jDelete, tablePred, objSet, objDelete, List.filter, jGet_jobj,
          objGet, truthy]
  | jfunRej =>
      cases he : kids.isEmpty <;>
        simp [he, jSet, jDelete, tablePred, objSet, objDelete, List.filter, jGet_jobj,
          objGet, truthy]
  | jfunRes w =>
      cases he : kids.isEmpty <;>
        simp [he, jSet, jDelete, tablePred, objSet, objDelete, List.filter, jGet_jobj,
          objGet, truthy]

theorem tableStep (n : JVal) (rest : List JVal) (hwf : wfNode n = true) :
    filterTableSchema (n :: rest) =
      (if visibleTable n && truthy (jGet (mergeTable n) "field")
       then [tblShaped n] else []) ++ filterTableSchema rest := by
  cases n with
  | jobj kvs =>
      rw [filterTableSchema, treeMapList, treeFilterList_cons2]
      rw [show treeFilterList tablePred (treeMapList tableConv rest) =
        filterTableSchema rest from rfl]
      rw [tableKids_eq kvs hwf]
      by_cases hv : visibleTable (.jobj kvs) = true
      · rw [tableShape_visible kvs hwf hv]
        rw [show tablePred (tblShaped (.jobj kvs)) =
          truthy (jGet (mergeTable (.jobj kvs)) "field") from by
            rw [tablePred, tblShaped_get_ne _ _ (by decide)]]
        rw [hv, Bool.true_and]
      · have hv2 : visibleTable (.jobj kvs) = false := by simpa using hv
        rw [tableHidden_pred (.jobj kvs) hv2]
        rw [hv2, Bool.false_and]
        simp
  | jundefined => simp [wfNode] at hwf
  | jnull => simp [wfNode] at hwf
  | jbool b => simp [wfNode] at hwf
  | jnum m => simp [wfNode] at hwf
  | jstr s => simp [wfNode] at hwf
  | jarr xs => simp [wfNode] at hwf
  | jfunRej => simp [wfNode] at hwf
  | jfunRes w => simp [wfNode] at hwf

theorem jsize_pos (v : JVal) : 1 ≤ jsize v := by
  cases v <;> simp [jsize]

theorem objGet_jsize (kvs : List (String × JVal)) (k : String) :
    jsize (objGet kvs k) ≤ 1 + jsizeKVs kvs := by
  induction kvs with
  | nil => simp [objGet, jsize]
  | cons p rest ih =>
      obtain ⟨k1, v1⟩ := p
      rw [objGet]
      by_cases h1 : k1 = k
      · rw [if_pos h1, jsizeKVs]
        omega
      · rw [if_neg h1, jsizeKVs]
        omega

theorem childrenOf_jsize (n : JVal) : jsizeList (childrenOf n) < jsize n := by
  cases n with
  | jobj kvs =>
      rw [childrenOf, jGet_jobj]
      cases hch : objGet kvs "children" with
      | jarr xs =>
          have := objGet_jsize kvs "children"
          rw [hch] at this
          rw [jsize] at this
          rw [show jsize (JVal.jobj kvs) = 1 + jsizeKVs kvs from by rw [jsize]]
          show jsizeList xs < 1 + jsizeKVs kvs
          omega
      | jundefined => rw [show jsizeList [] = 0 from rfl]; exact jsize_pos _
      | jnull => rw [show jsizeList [] = 0 from rfl]; exact jsize_pos _
      | jbool b => rw [show jsizeList [] = 0 from rfl]; exact jsize_pos _
      | jnum m => rw [show jsizeList [] = 0 from rfl]; exact jsize_pos _
      | jstr s => rw [show jsizeList [] = 0 from rfl]; exact jsize_pos _
      | jobj b2 => rw [show jsizeList [] = 0 from rfl]; exact jsize_pos _
      | jfunRej => rw [show jsizeList [] = 0 from rfl]; exact jsize_pos _
      | jfunRes w => rw [show jsizeList [] = 0 from rfl]; exact jsize_pos _
  | jundefined => exact jsize_pos _
  | jnull => exact jsize_pos _
  | jbool b => exact jsize_pos _
  | jnum m => exact jsize_pos _
  | jstr s => exact jsize_pos _
  | jarr xs => exact jsize_pos _
  | jfunRej => exact jsize_pos _
  | jfunRes w => exact jsize_pos _

theorem appears_not_nil (m : JVal) (h : AppearsTable [] m) : False := by
  cases h with
  | here hmem hv hf => cases hmem
  | under hmem hv hf hrec => cases hmem

theorem appears_cons (n : JVal) (rest : List JVal) (m : JVal) :
    AppearsTable (n :: rest) m ↔
      ((visibleTable n = true ∧ truthy (jGet (mergeTable n) "field") = true ∧
        (m = tblShaped n ∨ AppearsTable (childrenOf n) m)) ∨ AppearsTable rest m) := by
  constructor
  · intro h
    cases h with
    | @here _ n2 hmem hv hf =>
        rcases List.mem_cons.mp hmem with heq | h2
        · subst heq
          exact Or.inl ⟨hv, hf, Or.inl rfl⟩
        · exact Or.inr (AppearsTable.here h2 hv hf)
    | @under _ n2 m2 hmem hv hf hrec =>
        rcases List.mem_cons.mp hmem with heq | h2
        · subst heq
          exact Or.inl ⟨hv, hf, Or.inr hrec⟩
        · exact Or.inr (AppearsTable.under h2 hv hf hrec)
  · rintro (⟨hv, hf, rfl | hrec⟩ | hr)
    · exact AppearsTable.here (List.mem_cons_self n rest) hv hf
    · exact AppearsTable.under (List.mem_cons_self n rest) hv hf hrec
    · cases hr with
      | @here _ n2 hmem hv hf => exact AppearsTable.here (List.mem_cons_of_mem n hmem) hv hf
      | @under _ n2 m2 hmem hv hf hrec =>
          exact AppearsTable.under (List.mem_cons_of_mem n hmem) hv hf hrec

theorem appears_field (l : List JVal) (m : JVal) (h : AppearsTable l m) :
    truthy (jGet m "field") = true := by
  induction h with
  | here hmem hv hf => rw [tblShaped_get_ne _ _ (by decide)]; exact hf
  | under hmem hv hf hrec ih => exact ih

theorem tableChar (N : Nat) : ∀ (l : List JVal), jsizeList l ≤ N → wfList l = true →
    ∀ m, m ∈ preorder (filterTableSchema l) ↔ AppearsTable l m := by
  induction N with
  | zero =>
      intro l hsz hwf m
      cases l with
      | nil =>
          rw [show filterTableSchema ([] : List JVal) = [] from rfl,
            show preorder [] = [] from rfl]
          simp only [List.not_mem_nil, false_iff]
          exact fun h => appears_not_nil m h
      | cons n rest =>
          rw [jsizeList] at hsz
          have := jsize_pos n
          omega
  | succ N ih =>
      intro l hsz hwf m
      cases l with
      | nil =>
          rw [show filterTableSchema ([] : List JVal) = [] from rfl,
            show preorder [] = [] from rfl]
          simp only [List.not_mem_nil, false_iff]
          exact fun h => appears_not_nil m h
      | cons n rest =>
          have hwfn := (wfList_parts hwf).1
          have hwfr := (wfList_parts hwf).2
          have hszr : jsizeList rest ≤ N := by
            rw [jsizeList] at hsz
            have := jsize_pos n
            omega
          have hszc : jsizeList (childrenOf n) ≤ N := by
            have := childrenOf_jsize n
            rw [jsizeList] at hsz
            omega
          rw [tableStep n rest hwfn, appears_cons]
          by_cases hc : (visibleTable n && truthy (jGet (mergeTable n) "field")) = true
          · rw [if_pos hc]
            simp only [Bool.and_eq_true] at hc
            rw [show ([tblShaped n] ++ filterTableSchema rest) =
              tblShaped n :: filterTableSchema rest from rfl]
            rw [preorder_cons, childrenOf_tblShaped]
            constructor
            · intro h
              rcases List.mem_cons.mp h with heq | h2
              · exact Or.inl ⟨hc.1, hc.2, Or.inl heq⟩
              · rcases List.mem_append.mp h2 with h3 | h4
                · exact Or.inl ⟨hc.1, hc.2,
                    Or.inr ((ih (childrenOf n) hszc (wfNode_childrenWf n hwfn) m).mp h3)⟩
                · exact Or.inr ((ih rest hszr hwfr m).mp h4)
            · rintro (⟨hv, hf, rfl | hrec⟩ | hr)
              · exact List.mem_cons_self _ _
              · exact List.mem_cons_of_mem _ (List.mem_append.mpr
                  (Or.inl ((ih (childrenOf n) hszc (wfNode_childrenWf n hwfn) m).mpr hrec)))
              · exact List.mem_cons_of_mem _ (List.mem_append.mpr
                  (Or.inr ((ih rest hszr hwfr m).mpr hr)))
          · rw [if_neg hc, List.nil_append]
            simp only [Bool.and_eq_true, not_and] at hc
            constructor
            · intro h
              exact Or.inr ((ih rest hszr hwfr m).mp h)
            · rintro (⟨hv, hf, _⟩ | hr)
              · exact absurd hf (by simp [hc hv])
              · exact (ih rest hszr hwfr m).mpr hr

/-- Claim C2 (amended): a record appears in `tableColumns` if and only if
it is the shaped merge of an input node such that the node AND every one
of its ancestors has `table.show` not explicitly `false` and carries a
truthy `field` after merging (a node buried under a pruned ancestor is
dropped with it); in particular no record of the output has an empty or
absent `field`. -/
theorem claim_C2_table_membership (l : List JVal) (hwf : wfList l = true) :
    (∀ m, m ∈ preorder (filterTableSchema l) ↔ AppearsTable l m) ∧
    (∀ m, m ∈ preorder (filterTableSchema l) → truthy (jGet m "field") = true) := by
  have hch := tableChar (jsizeList l) l (Nat.le_refl _) hwf
  exact ⟨hch, fun m hm => appears_field l m ((hch m).mp hm)⟩

/-- Claim C2 counterexample: in `treeC2` the child node has `table.show`
absent (not `false`) and a truthy merged `field "a"`, yet the table
projection of the tree is empty — its parent is hidden, so the claimed
"if and only if" fails in the if direction. -/
theorem claim_C2_counterexample :
    filterTableSchema treeC2 = [] ∧
    jGet (jGet childA "table") "show" ≠ JVal.jbool false ∧
    truthy (jGet (mergeTable childA) "field") = true ∧
    childA ∈ preorder treeC2 := by
  refine ⟨by decide, by decide, by decide, by decide⟩

theorem claim_C2_witness :
    (childA ∈ preorder (filterTableSchema treeC2) ↔ AppearsTable treeC2 childA) ∧
    (childA ∈ preorder (filterTableSchema treeC2) → truthy (jGet childA "field") = true) :=
  ⟨(claim_C2_table_membership treeC2 (by decide)).1 childA,
   (claim_C2_table_membership treeC2 (by decide)).2 childA⟩
